import Mathlib

/-!
Verification development for the orbit-defender2d "King of the Hill" game
engine.  The Python sources are shallowly embedded: each definition below
mirrors one function of the repository (`orbit_grid.py`, `utils.py`,
`engagement_graph.py`, `koth.py`, `game_server.py`), with machine floats
modelled by rationals and the NumPy random stream modelled by explicit
oracle streams of draws and index picks.
-/

namespace OD2D

/-! ## utils.py : int2bitlist / bitlist2int -/

/-- Little-endian bit expansion, fuel-indexed so that it is structurally
recursive (the fuel argument is an implementation artifact: any fuel
`≥ n` yields the same list). -/
def bitsLEAux : ℕ → ℕ → List ℕ
  | 0, _ => []
  | (fuel+1), n => if n = 0 then [] else (n % 2) :: bitsLEAux fuel (n / 2)

/-- Little-endian bit expansion of a natural number (empty for 0);
helper for `int2bitlist`, which mirrors Python's `bin(n)[2:]`. -/
def bitsLE (n : ℕ) : List ℕ := bitsLEAux n n

theorem bitsLEAux_fuel_irrel (f1 : ℕ) : ∀ f2 n, n ≤ f1 → n ≤ f2 →
    bitsLEAux f1 n = bitsLEAux f2 n := by
  induction f1 with
  | zero =>
    intro f2 n h1 _
    interval_cases n
    cases f2 <;> simp [bitsLEAux]
  | succ f1 ih =>
    intro f2 n h1 h2
    match f2 with
    | 0 =>
      interval_cases n
      simp [bitsLEAux]
    | (f2'+1) =>
      by_cases hn : n = 0
      · simp [bitsLEAux, hn]
      · simp only [bitsLEAux, hn, if_false]
        have hd : n / 2 < n := Nat.div_lt_self (by omega) (by norm_num)
        rw [ih f2' (n / 2) (by omega) (by omega)]

theorem bitsLE_succ (n : ℕ) (h : 1 ≤ n) :
    bitsLE n = (n % 2) :: bitsLE (n / 2) := by
  unfold bitsLE
  match n, h with
  | (m+1), _ =>
    simp only [bitsLEAux, Nat.succ_ne_zero, if_false]
    congr 1
    have hd : (m+1) / 2 < m + 1 := Nat.div_lt_self (by omega) (by norm_num)
    exact bitsLEAux_fuel_irrel m ((m+1)/2) ((m+1)/2) (by omega) (by omega)

/-- `utils.int2bitlist`: shortest-length binary representation as a list of
bits, most significant first; `bin(0)[2:] = "0"` yields `[0]`. -/
def int2bitlist (n : ℕ) : List ℕ :=
  if n = 0 then [0] else (bitsLE n).reverse

/-- Value of a little-endian bit list; helper for `bitlist2int`. -/
def bitlist2intLE : List ℕ → ℕ
  | [] => 0
  | v :: rest => v + 2 * bitlist2intLE rest

/-- `utils.bitlist2int`: `n += v * 2**i` over `enumerate(reversed(b))`. -/
def bitlist2int (b : List ℕ) : ℕ := bitlist2intLE b.reverse

theorem bitlist2intLE_bitsLE (n : ℕ) : bitlist2intLE (bitsLE n) = n := by
  induction n using Nat.strong_induction_on with
  | _ n ih =>
    match n with
    | 0 => simp [bitsLE, bitsLEAux, bitlist2intLE]
    | (m+1) =>
      rw [bitsLE_succ (m+1) (by omega), bitlist2intLE,
        ih ((m+1)/2) (Nat.div_lt_self (Nat.succ_pos m) (by norm_num))]
      omega

theorem bitlist2int_int2bitlist (n : ℕ) : bitlist2int (int2bitlist n) = n := by
  unfold int2bitlist bitlist2int
  split
  · simp [bitlist2intLE]; omega
  · rw [List.reverse_reverse, bitlist2intLE_bitsLE]

theorem bitlist2int_append_zero (b : List ℕ) :
    bitlist2int (b ++ [0]) = 2 * bitlist2int b := by
  unfold bitlist2int
  rw [List.reverse_append]
  simp [bitlist2intLE]

/-- The azimuth produced by `get_radial_out_sector`'s bit manipulation is
exactly doubling. -/
theorem radial_out_azim_eq (a : ℕ) :
    bitlist2int (int2bitlist a ++ [0]) = 2 * a := by
  rw [bitlist2int_append_zero, bitlist2int_int2bitlist]

/-- The azimuth produced by `get_radial_in_sector`'s bit manipulation
(`int2bitlist(a)[:-1]`, with `[0]` substituted for the empty list) is
exactly halving. -/
theorem radial_in_azim_eq (a : ℕ) :
    bitlist2int (let bs := (int2bitlist a).dropLast;
                 if bs.length = 0 then [0] else bs) = a / 2 := by
  unfold int2bitlist
  by_cases h : a = 0
  · subst h; simp [bitlist2int, bitlist2intLE]
  · simp only [h, if_false]
    rw [bitsLE_succ a (by omega)]
    rw [List.reverse_cons, List.dropLast_concat]
    by_cases h2 : a / 2 = 0
    · have hb : bitsLE (a / 2) = [] := by rw [h2]; simp [bitsLE, bitsLEAux]
      rw [hb]
      simp [bitlist2int, bitlist2intLE, h2]
    · have hne : (bitsLE (a / 2)).reverse.length ≠ 0 := by
        intro hc
        rw [List.length_reverse] at hc
        have hv := bitlist2intLE_bitsLE (a / 2)
        rw [List.length_eq_zero.mp hc] at hv
        exact h2 (hv.symm ▸ rfl)
      simp only [hne, if_false]
      rw [bitlist2int, List.reverse_reverse, bitlist2intLE_bitsLE]

/-! ## orbit_grid.py : OrbitGrid

The grid with `n_rings = n` has `2^(n+1) - 1` sectors.  Sector validity
(`0 ≤ s < n_sectors`, asserted in the Python) appears as hypotheses of the
theorems. -/

/-- `OrbitGrid.n_sectors` for `n_rings = n`. -/
def nSectors (n : ℕ) : ℕ := 2 ^ (n + 1) - 1

/-- Python `int.bit_length`, fuel-indexed for structural recursion. -/
def bitLengthAux : ℕ → ℕ → ℕ
  | 0, _ => 0
  | (fuel+1), n => if n = 0 then 0 else bitLengthAux fuel (n / 2) + 1

/-- Python `int.bit_length` (0 for 0). -/
def bitLength (n : ℕ) : ℕ := bitLengthAux n n

theorem bitLengthAux_fuel_irrel (f1 : ℕ) : ∀ f2 n, n ≤ f1 → n ≤ f2 →
    bitLengthAux f1 n = bitLengthAux f2 n := by
  induction f1 with
  | zero =>
    intro f2 n h1 _
    interval_cases n
    cases f2 <;> simp [bitLengthAux]
  | succ f1 ih =>
    intro f2 n h1 h2
    match f2 with
    | 0 =>
      interval_cases n
      simp [bitLengthAux]
    | (f2'+1) =>
      by_cases hn : n = 0
      · simp [bitLengthAux, hn]
      · simp only [bitLengthAux, hn, if_false]
        have hd : n / 2 < n := Nat.div_lt_self (by omega) (by norm_num)
        rw [ih f2' (n / 2) (by omega) (by omega)]

theorem bitLength_succ (n : ℕ) (h : 1 ≤ n) :
    bitLength n = bitLength (n / 2) + 1 := by
  unfold bitLength
  match n, h with
  | (m+1), _ =>
    simp only [bitLengthAux, Nat.succ_ne_zero, if_false]
    congr 1
    have hd : (m+1) / 2 < m + 1 := Nat.div_lt_self (by omega) (by norm_num)
    exact bitLengthAux_fuel_irrel m ((m+1)/2) ((m+1)/2) (by omega) (by omega)

/-- `bit_length` of a number with bit `r` set high: `2^r ≤ n < 2^(r+1)`
has bit length `r + 1`. -/
theorem bitLength_pow_add (r : ℕ) : ∀ a, a < 2 ^ r →
    bitLength (2 ^ r + a) = r + 1 := by
  induction r with
  | zero =>
    intro a ha
    interval_cases a
    simp [bitLength, bitLengthAux]
  | succ r ih =>
    intro a ha
    have hpos : 1 ≤ 2 ^ (r+1) + a := by
      have h1 : 1 ≤ 2 ^ (r+1) := Nat.one_le_two_pow
      omega
    rw [bitLength_succ _ hpos]
    have hdiv : (2 ^ (r+1) + a) / 2 = 2 ^ r + a / 2 := by
      rw [pow_succ]
      omega
    rw [hdiv, ih (a / 2) (by rw [pow_succ] at ha; omega)]

/-- `OrbitGrid.sector_num2ring`: `(sec_num + 1).bit_length() - 1`. -/
def sectorNum2Ring (s : ℕ) : ℕ := bitLength (s + 1) - 1

/-- Azimuth part of `OrbitGrid.sector_num2coord`: `sec_num - 2**ring + 1`. -/
def sectorNum2Azim (s : ℕ) : ℕ := s + 1 - 2 ^ (sectorNum2Ring s)

/-- `OrbitGrid.sector_coord2num`: `2**ring + azim - 1`. -/
def sectorCoord2Num (ring azim : ℕ) : ℕ := 2 ^ ring + azim - 1

/-- `OrbitGrid.get_num_sectors_in_ring`. -/
def numSectorsInRing (ring : ℕ) : ℕ := 2 ^ ring

/-- `OrbitGrid.get_relative_azimuth_sector`; Python's `%` on integers is
floor-mod (`Int.fmod`). -/
def relativeAzimuthSector (s : ℕ) (rel : ℤ) : ℕ :=
  let r := sectorNum2Ring s
  let a : ℤ := sectorNum2Azim s
  let m : ℤ := numSectorsInRing r
  sectorCoord2Num r (Int.fmod (a + rel) m).toNat

/-- `OrbitGrid.get_prograde_sector`. -/
def getProgradeSector (s : ℕ) : ℕ := relativeAzimuthSector s 1

/-- `OrbitGrid.get_retrograde_sector`. -/
def getRetrogradeSector (s : ℕ) : ℕ := relativeAzimuthSector s (-1)

/-- `OrbitGrid.get_radial_out_sector` (None on the outermost ring). -/
def getRadialOutSector (n s : ℕ) : Option ℕ :=
  let r := sectorNum2Ring s
  if n ≤ r then none
  else some (sectorCoord2Num (r + 1)
    (bitlist2int (int2bitlist (sectorNum2Azim s) ++ [0])))

/-- `OrbitGrid.get_radial_in_sector` (None on ring 0). -/
def getRadialInSector (s : ℕ) : Option ℕ :=
  let r := sectorNum2Ring s
  if r < 1 then none
  else some (sectorCoord2Num (r - 1)
    (bitlist2int (let bs := (int2bitlist (sectorNum2Azim s)).dropLast;
                  if bs.length = 0 then [0] else bs)))

/-- `OrbitGrid.get_all_adjacent_sectors`: prograde and retrograde sectors,
the radial-in sector when it exists, and both radial-out sectors when they
exist. -/
def getAllAdjacentSectors (n s : ℕ) : Finset ℕ :=
  let base : Finset ℕ := {getProgradeSector s, getRetrogradeSector s}
  let base := match getRadialInSector s with
    | none => base
    | some i => insert i base
  match getRadialOutSector n s with
  | none => base
  | some o => insert o (insert (getProgradeSector o) base)

/-! ### Coordinate lemmas for the grid -/

theorem bitLength_bounds (n : ℕ) (h : 1 ≤ n) :
    2 ^ (bitLength n - 1) ≤ n ∧ n < 2 ^ (bitLength n) := by
  induction n using Nat.strong_induction_on with
  | _ n ih =>
    by_cases h2 : n / 2 = 0
    · have hn1 : n = 1 := by omega
      subst hn1
      simp [bitLength, bitLengthAux]
    · have hrec := ih (n / 2) (Nat.div_lt_self (by omega) (by norm_num)) (by omega)
      rw [bitLength_succ n h]
      have hbl1 : 1 ≤ bitLength (n / 2) := by
        rw [bitLength_succ (n / 2) (by omega)]; omega
      have hp1 : 2 ^ (bitLength (n / 2)) = 2 * 2 ^ (bitLength (n / 2) - 1) := by
        rw [← pow_succ']
        congr 1
        omega
      have hp2 : 2 ^ (bitLength (n / 2) + 1) = 2 * 2 ^ (bitLength (n / 2)) := by
        rw [← pow_succ']
      constructor
      · simp only [Nat.add_sub_cancel]
        omega
      · omega

theorem sectorNum2Ring_coord (r a : ℕ) (h : a < 2 ^ r) :
    sectorNum2Ring (sectorCoord2Num r a) = r := by
  unfold sectorNum2Ring sectorCoord2Num
  have h1 : 1 ≤ 2 ^ r := Nat.one_le_two_pow
  rw [show 2 ^ r + a - 1 + 1 = 2 ^ r + a by omega]
  rw [bitLength_pow_add r a h]
  omega

theorem sectorNum2Azim_coord (r a : ℕ) (h : a < 2 ^ r) :
    sectorNum2Azim (sectorCoord2Num r a) = a := by
  unfold sectorNum2Azim
  rw [sectorNum2Ring_coord r a h]
  unfold sectorCoord2Num
  have h1 : 1 ≤ 2 ^ r := Nat.one_le_two_pow
  omega

theorem sectorNum2Ring_bitLength (s : ℕ) :
    bitLength (s + 1) = sectorNum2Ring s + 1 := by
  unfold sectorNum2Ring
  have h1 : 1 ≤ bitLength (s + 1) := by
    rw [bitLength_succ (s + 1) (by omega)]; omega
  omega

theorem sectorCoord2Num_ring_azim (s : ℕ) :
    sectorCoord2Num (sectorNum2Ring s) (sectorNum2Azim s) = s := by
  unfold sectorCoord2Num sectorNum2Azim
  have hb := (bitLength_bounds (s + 1) (by omega)).1
  rw [sectorNum2Ring_bitLength s, Nat.add_sub_cancel] at hb
  omega

theorem sectorNum2Azim_lt (s : ℕ) :
    sectorNum2Azim s < 2 ^ (sectorNum2Ring s) := by
  unfold sectorNum2Azim
  have hb2 := (bitLength_bounds (s + 1) (by omega)).2
  rw [sectorNum2Ring_bitLength s, pow_succ] at hb2
  have h1 : 1 ≤ 2 ^ sectorNum2Ring s := Nat.one_le_two_pow
  omega

theorem sectorNum2Ring_le (n s : ℕ) (h : s < nSectors n) :
    sectorNum2Ring s ≤ n := by
  unfold nSectors at h
  have hb1 := (bitLength_bounds (s + 1) (by omega)).1
  rw [sectorNum2Ring_bitLength s, Nat.add_sub_cancel] at hb1
  by_contra hc
  have h2 : 2 ^ (n + 1) ≤ 2 ^ sectorNum2Ring s :=
    Nat.pow_le_pow_right (by norm_num) (by omega)
  omega

theorem sectorCoord2Num_lt (n r a : ℕ) (hr : r ≤ n) (ha : a < 2 ^ r) :
    sectorCoord2Num r a < nSectors n := by
  unfold sectorCoord2Num nSectors
  have h1 : 2 ^ (r + 1) ≤ 2 ^ (n + 1) := Nat.pow_le_pow_right (by norm_num) (by omega)
  rw [pow_succ] at h1
  omega

/-- `get_prograde_sector` in coordinates. -/
theorem getProgradeSector_coord (r a : ℕ) (h : a < 2 ^ r) :
    getProgradeSector (sectorCoord2Num r a) =
      sectorCoord2Num r ((a + 1) % 2 ^ r) := by
  unfold getProgradeSector relativeAzimuthSector numSectorsInRing
  dsimp only
  rw [sectorNum2Ring_coord r a h, sectorNum2Azim_coord r a h]
  congr 1

/-- `get_retrograde_sector` in coordinates (Python's `(a - 1) % m` is
floor-mod, hence `(a + m - 1) % m` over ℕ). -/
theorem getRetrogradeSector_coord (r a : ℕ) (h : a < 2 ^ r) :
    getRetrogradeSector (sectorCoord2Num r a) =
      sectorCoord2Num r ((a + 2 ^ r - 1) % 2 ^ r) := by
  unfold getRetrogradeSector relativeAzimuthSector numSectorsInRing
  dsimp only
  rw [sectorNum2Ring_coord r a h, sectorNum2Azim_coord r a h]
  congr 1
  have hm : (0:ℤ) ≤ ((2 ^ r : ℕ) : ℤ) := by positivity
  rw [Int.fmod_eq_emod _ hm]
  have h1 : 1 ≤ 2 ^ r := Nat.one_le_two_pow
  rw [show ((a:ℤ) + (-1)) = ((a + 2 ^ r - 1 : ℕ) : ℤ) - ((2 ^ r : ℕ) : ℤ) by
    push_cast [Nat.cast_sub (by omega : 1 ≤ a + 2 ^ r)]; ring]
  rw [Int.emod_sub_cancel]
  rw [← Int.ofNat_emod]
  exact Int.toNat_natCast _

/-- `get_radial_out_sector` in coordinates: the lower child, azimuth `2a`. -/
theorem getRadialOutSector_coord (n r a : ℕ) (h : a < 2 ^ r) (hr : r < n) :
    getRadialOutSector n (sectorCoord2Num r a) =
      some (sectorCoord2Num (r + 1) (2 * a)) := by
  unfold getRadialOutSector
  rw [sectorNum2Ring_coord r a h, sectorNum2Azim_coord r a h]
  rw [if_neg (by omega)]
  rw [radial_out_azim_eq]

/-- `get_radial_in_sector` in coordinates: the parent, azimuth `a / 2`. -/
theorem getRadialInSector_coord (r a : ℕ) (h : a < 2 ^ r) (hr : 1 ≤ r) :
    getRadialInSector (sectorCoord2Num r a) =
      some (sectorCoord2Num (r - 1) (a / 2)) := by
  unfold getRadialInSector
  rw [sectorNum2Ring_coord r a h, sectorNum2Azim_coord r a h]
  rw [if_neg (by omega)]
  rw [radial_in_azim_eq]

/-- The sibling of a sector: the other child of its parent (flip the low
bit of the azimuth). -/
def siblingSector (s : ℕ) : ℕ :=
  if sectorNum2Azim s % 2 = 0 then s + 1 else s - 1

/-- Claim C7.  For every sector `s` of the grid not on the outermost ring,
`radial_in (radial_out s) = s`; and for every sector not on the innermost
ring, `radial_out (radial_in s)` is either `s` or the sibling of `s` (and
the sibling really is the other child of `s`'s parent: it differs from
`s`, lies on the same ring, and has the same radial-in sector). -/
theorem radial_out_in_roundtrip (n s : ℕ) (hs : s < nSectors n) :
    (sectorNum2Ring s < n →
      (getRadialOutSector n s).bind getRadialInSector = some s) ∧
    (1 ≤ sectorNum2Ring s →
      (siblingSector s ≠ s ∧
       sectorNum2Ring (siblingSector s) = sectorNum2Ring s ∧
       getRadialInSector (siblingSector s) = getRadialInSector s) ∧
      ((getRadialInSector s).bind (getRadialOutSector n) = some s ∨
       (getRadialInSector s).bind (getRadialOutSector n) =
         some (siblingSector s))) := by
  have hrle : sectorNum2Ring s ≤ n := sectorNum2Ring_le n s hs
  have halt : sectorNum2Azim s < 2 ^ (sectorNum2Ring s) := sectorNum2Azim_lt s
  set r := sectorNum2Ring s with hr
  set a := sectorNum2Azim s with ha
  have hsn : s = sectorCoord2Num r a := (sectorCoord2Num_ring_azim s).symm
  constructor
  · intro hrn
    have hout : getRadialOutSector n s = some (sectorCoord2Num (r + 1) (2 * a)) := by
      conv_lhs => rw [hsn]
      exact getRadialOutSector_coord n r a halt hrn
    rw [hout, Option.some_bind]
    rw [getRadialInSector_coord (r + 1) (2 * a)
      (by rw [pow_succ]; omega) (by omega)]
    rw [Nat.add_sub_cancel, Nat.mul_div_cancel_left a (by norm_num)]
    exact congrArg some hsn.symm
  · intro hr1
    have hsib : siblingSector s =
        if a % 2 = 0 then s + 1 else s - 1 := by
      unfold siblingSector
      rw [← ha]
    have hs1 : 1 ≤ s := by
      rw [hsn]
      unfold sectorCoord2Num
      have : 2 ≤ 2 ^ r := by
        calc 2 = 2 ^ 1 := (pow_one 2).symm
        _ ≤ 2 ^ r := Nat.pow_le_pow_right (by norm_num) hr1
      omega
    have hpowr : 2 ^ r = 2 * 2 ^ (r - 1) := by
      rw [← pow_succ']
      congr 1
      omega
    -- the sibling written in coordinates
    have hsibc : siblingSector s = sectorCoord2Num r (if a % 2 = 0 then a + 1 else a - 1) := by
      rw [hsib, hsn]
      unfold sectorCoord2Num
      have h2r : 1 ≤ 2 ^ r := Nat.one_le_two_pow
      by_cases hpar : a % 2 = 0
      · simp only [hpar, if_true]
        omega
      · simp only [hpar, if_false]
        have ha1 : 1 ≤ a := by omega
        omega
    have hsiba : (if a % 2 = 0 then a + 1 else a - 1) < 2 ^ r := by
      by_cases hpar : a % 2 = 0
      · simp only [hpar, if_true]
        omega
      · simp only [hpar, if_false]
        omega
    refine ⟨⟨?_, ?_, ?_⟩, ?_⟩
    · -- sibling differs from s
      rw [hsib]
      by_cases hpar : a % 2 = 0
      · simp only [hpar, if_true]
        omega
      · simp only [hpar, if_false]
        omega
    · -- sibling on the same ring
      rw [hsibc, sectorNum2Ring_coord r _ hsiba, hr]
    · -- sibling has the same parent
      rw [hsibc, getRadialInSector_coord r _ hsiba hr1,
        hsn, getRadialInSector_coord r a halt hr1]
      congr 2
      by_cases hpar : a % 2 = 0
      · simp only [hpar, if_true]
        omega
      · simp only [hpar, if_false]
        omega
    · -- the roundtrip lands on s or its sibling
      have hin : getRadialInSector s = some (sectorCoord2Num (r - 1) (a / 2)) := by
        conv_lhs => rw [hsn]
        exact getRadialInSector_coord r a halt hr1
      rw [hin, Option.some_bind]
      rw [getRadialOutSector_coord n (r - 1) (a / 2) (by omega) (by omega)]
      rw [show r - 1 + 1 = r by omega]
      by_cases hpar : a % 2 = 0
      · left
        rw [hsn]
        congr 2
        omega
      · right
        rw [hsibc]
        congr 2
        simp only [hpar, if_false]
        omega

/-- Witness for `radial_out_in_roundtrip` at `n = 4`, `s = 7`. -/
theorem radial_out_in_roundtrip_witness :
    (getRadialOutSector 4 7).bind getRadialInSector = some 7 ∧
    ((getRadialInSector 7).bind (getRadialOutSector 4) = some 7 ∨
     (getRadialInSector 7).bind (getRadialOutSector 4) =
       some (siblingSector 7)) := by
  have h := radial_out_in_roundtrip 4 7 (by norm_num [nSectors])
  refine ⟨h.1 ?_, (h.2 ?_).2⟩ <;> decide

/-- Claim C8 as stated is false: in the 4-ring grid,
`all_adjacent_sectors(7)` is `{8, 14, 3, 15, 16}` (sector 7 lies on ring 3,
which is not the outermost ring, so both radial-out children are adjacent),
not `{8, 14, 3}`. -/
theorem four_ring_adjacency_counterexample :
    getAllAdjacentSectors 4 7 ≠ ({8, 14, 3} : Finset ℕ) := by decide

/-- Claim C8, amended (the `all_adjacent_sectors(7)` value is the one the
code computes for the 4-ring grid).  In the 4-ring grid (`n_rings = 4`) with
`min_ring = 1` there are 30 playable sectors, numbered 1..30 (31 sectors
in total counting the unplayable centre sector 0); `prograde(1) = 2`,
`retrograde(1) = 2`, `radial_out(1) = 3`, and `all_adjacent_sectors(7)`
equals `{8, 14, 3, 15, 16}`. -/
theorem four_ring_grid_sanity :
    nSectors 4 = 31 ∧
    (Finset.range (nSectors 4)).filter (fun s => 1 ≤ sectorNum2Ring s) =
      Finset.Icc 1 30 ∧
    getProgradeSector 1 = 2 ∧
    getRetrogradeSector 1 = 2 ∧
    getRadialOutSector 4 1 = some 3 ∧
    getAllAdjacentSectors 4 7 = ({8, 14, 3, 15, 16} : Finset ℕ) := by
  refine ⟨by decide, ?_, by decide, by decide, by decide, by decide⟩
  decide

/-! ### Sector-adjacency symmetry -/

theorem getRadialInSector_ring_zero (s : ℕ) (h : sectorNum2Ring s = 0) :
    getRadialInSector s = none := by
  unfold getRadialInSector
  rw [if_pos (by omega)]

theorem getRadialOutSector_outer (n s : ℕ) (h : n ≤ sectorNum2Ring s) :
    getRadialOutSector n s = none := by
  unfold getRadialOutSector
  rw [if_pos h]

/-- Retrograde inverts prograde (for every sector number). -/
theorem getRetrogradeSector_getProgradeSector (s : ℕ) :
    getRetrogradeSector (getProgradeSector s) = s := by
  have halt : sectorNum2Azim s < 2 ^ (sectorNum2Ring s) := sectorNum2Azim_lt s
  set r := sectorNum2Ring s with hr
  set a := sectorNum2Azim s with ha
  have hsn : s = sectorCoord2Num r a := (sectorCoord2Num_ring_azim s).symm
  have hm1 : 1 ≤ 2 ^ r := Nat.one_le_two_pow
  conv_lhs => rw [hsn, getProgradeSector_coord r a halt]
  rw [getRetrogradeSector_coord r _ (Nat.mod_lt _ (by omega))]
  conv_rhs => rw [hsn]
  congr 1
  rw [show (a + 1) % 2 ^ r + 2 ^ r - 1 = (a + 1) % 2 ^ r + (2 ^ r - 1) by omega]
  rw [Nat.mod_add_mod]
  rw [show a + 1 + (2 ^ r - 1) = a + 2 ^ r by omega]
  rw [Nat.add_mod_right]
  exact Nat.mod_eq_of_lt halt

/-- Prograde inverts retrograde (for every sector number). -/
theorem getProgradeSector_getRetrogradeSector (s : ℕ) :
    getProgradeSector (getRetrogradeSector s) = s := by
  have halt : sectorNum2Azim s < 2 ^ (sectorNum2Ring s) := sectorNum2Azim_lt s
  set r := sectorNum2Ring s with hr
  set a := sectorNum2Azim s with ha
  have hsn : s = sectorCoord2Num r a := (sectorCoord2Num_ring_azim s).symm
  have hm1 : 1 ≤ 2 ^ r := Nat.one_le_two_pow
  conv_lhs => rw [hsn, getRetrogradeSector_coord r a halt]
  rw [getProgradeSector_coord r _ (Nat.mod_lt _ (by omega))]
  conv_rhs => rw [hsn]
  congr 1
  rw [Nat.mod_add_mod]
  rw [show a + 2 ^ r - 1 + 1 = a + 2 ^ r by omega]
  rw [Nat.add_mod_right]
  exact Nat.mod_eq_of_lt halt

/-- Membership characterization of `get_all_adjacent_sectors`. -/
theorem mem_getAllAdjacentSectors (n s t : ℕ) :
    t ∈ getAllAdjacentSectors n s ↔
      (t = getProgradeSector s ∨ t = getRetrogradeSector s ∨
       getRadialInSector s = some t ∨
       (∃ o, getRadialOutSector n s = some o ∧
         (t = o ∨ t = getProgradeSector o))) := by
  unfold getAllAdjacentSectors
  rcases hin : getRadialInSector s with _ | i <;>
    rcases hout : getRadialOutSector n s with _ | o <;>
      simp [hin, hout, Finset.mem_insert, Finset.mem_singleton] <;>
        constructor <;> rintro h <;> tauto

/-- Sector adjacency is a symmetric relation on valid sectors. -/
theorem adjacent_sectors_symm (n s t : ℕ) (hs : s < nSectors n)
    (hmem : t ∈ getAllAdjacentSectors n s) :
    s ∈ getAllAdjacentSectors n t := by
  rw [mem_getAllAdjacentSectors] at hmem ⊢
  have hrle : sectorNum2Ring s ≤ n := sectorNum2Ring_le n s hs
  have halt : sectorNum2Azim s < 2 ^ (sectorNum2Ring s) := sectorNum2Azim_lt s
  set r := sectorNum2Ring s with hr
  set a := sectorNum2Azim s with ha
  have hsn : s = sectorCoord2Num r a := (sectorCoord2Num_ring_azim s).symm
  rcases hmem with h | h | h | ⟨o, ho, h⟩
  · -- t is prograde of s, so s is retrograde of t
    right; left
    rw [h, getRetrogradeSector_getProgradeSector s]
  · -- t is retrograde of s, so s is prograde of t
    left
    rw [h, getProgradeSector_getRetrogradeSector s]
  · -- t is the parent of s, so s is one of t's radial-out children
    have hr1 : 1 ≤ r := by
      by_contra hc
      rw [getRadialInSector_ring_zero s (by omega)] at h
      exact Option.noConfusion h
    have hin : getRadialInSector s = some (sectorCoord2Num (r - 1) (a / 2)) := by
      conv_lhs => rw [hsn]
      exact getRadialInSector_coord r a halt hr1
    rw [hin] at h
    have hto : t = sectorCoord2Num (r - 1) (a / 2) := (Option.some_inj.mp h).symm
    have hpowr : 2 ^ r = 2 * 2 ^ (r - 1) := by
      rw [← pow_succ']
      congr 1
      omega
    have hhalf : a / 2 < 2 ^ (r - 1) := by omega
    right; right; right
    refine ⟨sectorCoord2Num r (2 * (a / 2)), ?_, ?_⟩
    · rw [hto, getRadialOutSector_coord n (r - 1) (a / 2) hhalf (by omega)]
      rw [show r - 1 + 1 = r by omega]
    · by_cases hpar : a % 2 = 0
      · left
        rw [hsn]
        congr 1
        omega
      · right
        rw [getProgradeSector_coord r (2 * (a / 2)) (by omega)]
        rw [hsn]
        congr 1
        have h2a : (2 * (a / 2) + 1) = a := by omega
        rw [h2a]
        exact (Nat.mod_eq_of_lt halt).symm
  · -- t is a radial-out child of s, so s is t's parent
    have hrn : r < n := by
      by_contra hc
      rw [getRadialOutSector_outer n s (by omega)] at ho
      exact Option.noConfusion ho
    have hout : getRadialOutSector n s = some (sectorCoord2Num (r + 1) (2 * a)) := by
      conv_lhs => rw [hsn]
      exact getRadialOutSector_coord n r a halt hrn
    rw [hout] at ho
    have hoeq : o = sectorCoord2Num (r + 1) (2 * a) := (Option.some_inj.mp ho).symm
    have h2a : 2 * a < 2 ^ (r + 1) := by rw [pow_succ]; omega
    right; right; left
    rcases h with h | h
    · rw [h, hoeq, getRadialInSector_coord (r + 1) (2 * a) h2a (by omega)]
      rw [Nat.add_sub_cancel, Nat.mul_div_cancel_left a (by norm_num)]
      exact congrArg some hsn.symm
    · rw [h, hoeq, getProgradeSector_coord (r + 1) (2 * a) h2a]
      have h2a1 : (2 * a + 1) % 2 ^ (r + 1) = 2 * a + 1 := by
        apply Nat.mod_eq_of_lt
        rw [pow_succ]
        omega
      rw [h2a1, getRadialInSector_coord (r + 1) (2 * a + 1) (by rw [pow_succ]; omega) (by omega)]
      rw [Nat.add_sub_cancel, show (2 * a + 1) / 2 = a by omega]
      exact congrArg some hsn.symm

/-! ## Token model (koth.py)

Token ids are the strings `"<player>:<role>:<num>"` of the catalog; we
model them as structured triples.  `token_name.split(':')[0]` is the
`player` field and the substring test `U.SEEKER in token_name` is the
test `role = seeker` (the roles `'HVA'`/`'Patrol'` occur in a token name
exactly as its role component). -/

inductive Player
  | alpha
  | beta
deriving DecidableEq, Repr

inductive Role
  | seeker
  | bludger
deriving DecidableEq, Repr

structure TokenId where
  player : Player
  role : Role
  num : ℕ
deriving DecidableEq, Repr

/-- `KOTHTokenState` with its `Satellite` flattened: `satellite.fuel`,
`satellite.ammo`, `role`, `position`.  Fuel is a Python float, modelled
as a rational; ammo an integer. -/
structure TokenState where
  fuel : ℚ
  ammo : ℤ
  role : Role
  position : ℕ
deriving DecidableEq, Repr

/-- The token catalog (`token_catalog` OrderedDict) as an association
list. -/
abbrev Catalog := List (TokenId × TokenState)

/-- Dict lookup `token_catalog[name]`. -/
def lookupTok (cat : Catalog) (t : TokenId) : Option TokenState :=
  (cat.find? (fun p => p.1 = t)).map (fun p => p.2)

/-- `koth.is_same_player` (parses the ids and compares player fields). -/
def isSamePlayer (t1 t2 : TokenId) : Bool := t1.player = t2.player

/-! ## koth.get_token_adjacency_graph (claim C9)

The directed graph is represented by its edge list: the double loop over
the catalog adds `token1 → token2` whenever `token2`'s position is in
`[token1.position] ++ all_adjacent_sectors(token1.position)`. -/

def getTokenAdjacencyGraphEdges (n : ℕ) (cat : Catalog) :
    List (TokenId × TokenId) :=
  cat.flatMap (fun t1 =>
    (cat.filter (fun t2 =>
        t1.1 ≠ t2.1 ∧
        (t2.2.position = t1.2.position ∨
         t2.2.position ∈ getAllAdjacentSectors n t1.2.position))).map
      (fun t2 => (t1.1, t2.1)))

theorem mem_getTokenAdjacencyGraphEdges (n : ℕ) (cat : Catalog)
    (u v : TokenId) :
    (u, v) ∈ getTokenAdjacencyGraphEdges n cat ↔
      ∃ su sv, (u, su) ∈ cat ∧ (v, sv) ∈ cat ∧ u ≠ v ∧
        (sv.position = su.position ∨
         sv.position ∈ getAllAdjacentSectors n su.position) := by
  unfold getTokenAdjacencyGraphEdges
  rw [List.mem_flatMap]
  constructor
  · rintro ⟨t1, ht1, hmem⟩
    rw [List.mem_map] at hmem
    obtain ⟨t2, ht2, heq⟩ := hmem
    rw [List.mem_filter] at ht2
    obtain ⟨ht2cat, ht2cond⟩ := ht2
    have hu : t1.1 = u := congrArg Prod.fst heq
    have hv : t2.1 = v := congrArg Prod.snd heq
    simp only [decide_eq_true_eq, Bool.and_eq_true, decide_not,
      Bool.not_eq_true', decide_eq_false_iff_not, Bool.or_eq_true] at ht2cond
    refine ⟨t1.2, t2.2, ?_, ?_, ?_, ?_⟩
    · rw [← hu]; exact ht1
    · rw [← hv]; exact ht2cat
    · rw [← hu, ← hv]; exact ht2cond.1
    · exact ht2cond.2
  · rintro ⟨su, sv, hu, hv, hne, hadj⟩
    refine ⟨(u, su), hu, ?_⟩
    rw [List.mem_map]
    refine ⟨(v, sv), ?_, rfl⟩
    rw [List.mem_filter]
    refine ⟨hv, ?_⟩
    simp only [decide_eq_true_eq, Bool.and_eq_true, decide_not,
      Bool.not_eq_true', decide_eq_false_iff_not, Bool.or_eq_true]
    exact ⟨hne, hadj⟩

/-- Claim C9.  For every token catalog whose positions are valid grid
sectors, the token adjacency graph built by `get_token_adjacency_graph`
is symmetric: it contains `u → v` iff it contains `v → u`. -/
theorem token_adjacency_symmetric (n : ℕ) (cat : Catalog)
    (hpos : ∀ p ∈ cat, p.2.position < nSectors n) (u v : TokenId) :
    (u, v) ∈ getTokenAdjacencyGraphEdges n cat ↔
      (v, u) ∈ getTokenAdjacencyGraphEdges n cat := by
  have key : ∀ x y : TokenId, (x, y) ∈ getTokenAdjacencyGraphEdges n cat →
      (y, x) ∈ getTokenAdjacencyGraphEdges n cat := by
    intro x y hxy
    rw [mem_getTokenAdjacencyGraphEdges] at hxy ⊢
    obtain ⟨sx, sy, hx, hy, hne, hadj⟩ := hxy
    refine ⟨sy, sx, hy, hx, hne.symm, ?_⟩
    rcases hadj with heq | hmem
    · left; exact heq.symm
    · right
      exact adjacent_sectors_symm n sx.position sy.position
        (hpos (x, sx) hx) hmem
  exact ⟨key u v, key v u⟩

/-- Witness for `token_adjacency_symmetric`: a 4-ring board, an alpha
token at sector 7 and a beta token at the adjacent sector 8; the theorem
turns the forward edge into the reverse edge. -/
theorem token_adjacency_symmetric_witness :
    (⟨Player.beta, Role.bludger, 1⟩, (⟨Player.alpha, Role.seeker, 0⟩ : TokenId)) ∈
      getTokenAdjacencyGraphEdges 4
        [(⟨Player.alpha, Role.seeker, 0⟩, ⟨100, 0, Role.seeker, 7⟩),
         (⟨Player.beta, Role.bludger, 1⟩, ⟨100, 4, Role.bludger, 8⟩)] :=
  (token_adjacency_symmetric 4
    [(⟨Player.alpha, Role.seeker, 0⟩, ⟨100, 0, Role.seeker, 7⟩),
     (⟨Player.beta, Role.bludger, 1⟩, ⟨100, 4, Role.bludger, 8⟩)]
    (by decide) ⟨Player.alpha, Role.seeker, 0⟩ ⟨Player.beta, Role.bludger, 1⟩).mp
    (by decide)

/-! ## koth.get_legal_verbose_actions, ENGAGEMENT branch (claim C2)

A legal engagement entry is an `EngagementTuple(action_type, target,
None)`; we model it as the pair of its first two fields. -/

inductive EngKind
  | noop
  | shoot
  | collide
  | guard
deriving DecidableEq, Repr

structure EngAction where
  kind : EngKind
  target : TokenId
deriving DecidableEq, Repr

/-- Successors of a node in the token adjacency digraph
(`token_adjacency_graph.neighbors(token_name)`). -/
def neighborsOf (adj : List (TokenId × TokenId)) (t : TokenId) :
    List TokenId :=
  (adj.filter (fun e => e.1 = t)).map (fun e => e.2)

/-- The ENGAGEMENT branch of `get_legal_verbose_actions` for one token:
an inactive token (fuel ≤ 0) gets only NoOp; otherwise NoOp plus, per
adjacency neighbor: Guard for the own player's seeker when some active
token of the other player is adjacent to it; Collide for every active
token of the other player, plus Shoot when the actor's ammo is ≥ 1.
(Neighbors absent from the catalog would raise a `KeyError` in Python;
they contribute nothing here and are excluded by hypothesis wherever it
matters.) -/
def legalEngagementActionsFor (cat : Catalog)
    (adj : List (TokenId × TokenId)) (tok : TokenId) (ts : TokenState) :
    List EngAction :=
  if ts.fuel ≤ 0 then [⟨EngKind.noop, tok⟩]
  else
    ⟨EngKind.noop, tok⟩ :: (neighborsOf adj tok).flatMap (fun target =>
      if tok.player = target.player then
        if target.role = Role.seeker then
          if (neighborsOf adj target).any (fun tokAdj =>
              !(isSamePlayer tokAdj tok) &&
              (match lookupTok cat tokAdj with
               | none => false
               | some s => decide (0 < s.fuel))) then
            [⟨EngKind.guard, target⟩]
          else []
        else []
      else
        match lookupTok cat target with
        | none => []
        | some tgt =>
          if 0 < tgt.fuel then
            ⟨EngKind.collide, target⟩ ::
              (if 1 ≤ ts.ammo then [⟨EngKind.shoot, target⟩] else [])
          else [])

/-- Claim C2 as stated is false on the code: `get_legal_verbose_actions`
never inspects the actor's role, so an active Seeker with ammo adjacent
to an active enemy token is offered both Collide and Shoot.  Here the
alpha seeker (fuel 10, ammo 1) shares sector 5 with an active beta
bludger. -/
theorem seeker_shoot_collide_counterexample :
    (⟨EngKind.collide, ⟨Player.beta, Role.bludger, 1⟩⟩ ∈
      legalEngagementActionsFor
        [(⟨Player.alpha, Role.seeker, 0⟩, ⟨10, 1, Role.seeker, 5⟩),
         (⟨Player.beta, Role.bludger, 1⟩, ⟨10, 0, Role.bludger, 5⟩)]
        (getTokenAdjacencyGraphEdges 4
          [(⟨Player.alpha, Role.seeker, 0⟩, ⟨10, 1, Role.seeker, 5⟩),
           (⟨Player.beta, Role.bludger, 1⟩, ⟨10, 0, Role.bludger, 5⟩)])
        ⟨Player.alpha, Role.seeker, 0⟩ ⟨10, 1, Role.seeker, 5⟩) ∧
    (⟨EngKind.shoot, ⟨Player.beta, Role.bludger, 1⟩⟩ ∈
      legalEngagementActionsFor
        [(⟨Player.alpha, Role.seeker, 0⟩, ⟨10, 1, Role.seeker, 5⟩),
         (⟨Player.beta, Role.bludger, 1⟩, ⟨10, 0, Role.bludger, 5⟩)]
        (getTokenAdjacencyGraphEdges 4
          [(⟨Player.alpha, Role.seeker, 0⟩, ⟨10, 1, Role.seeker, 5⟩),
           (⟨Player.beta, Role.bludger, 1⟩, ⟨10, 0, Role.bludger, 5⟩)])
        ⟨Player.alpha, Role.seeker, 0⟩ ⟨10, 1, Role.seeker, 5⟩) := by
  constructor <;> decide

/-- Claim C2, amended.  For an active actor in the ENGAGEMENT phase,
Shoot(t) is legal iff `t` is an adjacency neighbor of the other player
with fuel > 0 and the actor has ammo ≥ 1; Collide(t) is legal iff `t` is
an adjacency neighbor of the other player with fuel > 0 — in both cases
regardless of whether the actor is a Seeker. -/
theorem legal_shoot_collide_iff (cat : Catalog)
    (adj : List (TokenId × TokenId)) (tok : TokenId) (ts : TokenState)
    (hfuel : ¬ ts.fuel ≤ 0) (tgt : TokenId) :
    ((⟨EngKind.shoot, tgt⟩ : EngAction) ∈
        legalEngagementActionsFor cat adj tok ts ↔
      tgt ∈ neighborsOf adj tok ∧ tok.player ≠ tgt.player ∧
        (∃ s, lookupTok cat tgt = some s ∧ 0 < s.fuel) ∧ 1 ≤ ts.ammo) ∧
    ((⟨EngKind.collide, tgt⟩ : EngAction) ∈
        legalEngagementActionsFor cat adj tok ts ↔
      tgt ∈ neighborsOf adj tok ∧ tok.player ≠ tgt.player ∧
        (∃ s, lookupTok cat tgt = some s ∧ 0 < s.fuel)) := by
  unfold legalEngagementActionsFor
  rw [if_neg hfuel]
  have hmem : ∀ (k : EngKind), k ≠ EngKind.noop → ∀ t : TokenId,
      ((⟨k, t⟩ : EngAction) ∈
        (⟨EngKind.noop, tok⟩ : EngAction) :: (neighborsOf adj tok).flatMap (fun target =>
          if tok.player = target.player then
            if target.role = Role.seeker then
              if (neighborsOf adj target).any (fun tokAdj =>
                  !(isSamePlayer tokAdj tok) &&
                  (match lookupTok cat tokAdj with
                   | none => false
                   | some s => decide (0 < s.fuel))) then
                [⟨EngKind.guard, target⟩]
              else []
            else []
          else
            match lookupTok cat target with
            | none => []
            | some tgt' =>
              if 0 < tgt'.fuel then
                ⟨EngKind.collide, target⟩ ::
                  (if 1 ≤ ts.ammo then [⟨EngKind.shoot, target⟩] else [])
              else []) ↔
        ∃ b ∈ neighborsOf adj tok, (⟨k, t⟩ : EngAction) ∈
          (if tok.player = b.player then
            if b.role = Role.seeker then
              if (neighborsOf adj b).any (fun tokAdj =>
                  !(isSamePlayer tokAdj tok) &&
                  (match lookupTok cat tokAdj with
                   | none => false
                   | some s => decide (0 < s.fuel))) then
                [⟨EngKind.guard, b⟩]
              else []
            else []
          else
            match lookupTok cat b with
            | none => []
            | some tgt' =>
              if 0 < tgt'.fuel then
                ⟨EngKind.collide, b⟩ ::
                  (if 1 ≤ ts.ammo then [⟨EngKind.shoot, b⟩] else [])
              else [])) := by
    intro k hk t
    rw [List.mem_cons, List.mem_flatMap]
    constructor
    · rintro (h | h)
      · exact absurd (congrArg EngAction.kind h) hk
      · exact h
    · intro h
      exact Or.inr h
  constructor
  · rw [hmem EngKind.shoot (by simp) tgt]
    constructor
    · rintro ⟨b, hb, hin⟩
      by_cases hpl : tok.player = b.player
      · rw [if_pos hpl] at hin
        rcases hrole : b.role with _ | _ <;> rw [hrole] at hin <;>
          [skip; simp at hin]
        rw [if_pos rfl] at hin
        rcases hany : ((neighborsOf adj b).any _) with _ | _ <;>
          rw [hany] at hin <;> simp at hin
      · rw [if_neg hpl] at hin
        rcases hlk : lookupTok cat b with _ | s
        · simp only [hlk] at hin
          simp at hin
        · simp only [hlk] at hin
          by_cases hf : 0 < s.fuel
          · rw [if_pos hf, List.mem_cons] at hin
            rcases hin with hin | hin
            · exact absurd (congrArg EngAction.kind hin) (by simp)
            · by_cases hammo : 1 ≤ ts.ammo
              · rw [if_pos hammo, List.mem_singleton] at hin
                have hbt : b = tgt := congrArg EngAction.target hin.symm
                subst hbt
                exact ⟨hb, hpl, ⟨s, hlk, hf⟩, hammo⟩
              · rw [if_neg hammo] at hin
                simp at hin
          · rw [if_neg hf] at hin
            simp at hin
    · rintro ⟨hnb, hpl, ⟨s, hlk, hf⟩, hammo⟩
      refine ⟨tgt, hnb, ?_⟩
      rw [if_neg hpl]
      simp only [hlk]
      rw [if_pos hf, if_pos hammo]
      simp
  · rw [hmem EngKind.collide (by simp) tgt]
    constructor
    · rintro ⟨b, hb, hin⟩
      by_cases hpl : tok.player = b.player
      · rw [if_pos hpl] at hin
        rcases hrole : b.role with _ | _ <;> rw [hrole] at hin <;>
          [skip; simp at hin]
        rw [if_pos rfl] at hin
        rcases hany : ((neighborsOf adj b).any _) with _ | _ <;>
          rw [hany] at hin <;> simp at hin
      · rw [if_neg hpl] at hin
        rcases hlk : lookupTok cat b with _ | s
        · simp only [hlk] at hin
          simp at hin
        · simp only [hlk] at hin
          by_cases hf : 0 < s.fuel
          · rw [if_pos hf, List.mem_cons] at hin
            rcases hin with hin | hin
            · have hbt : b = tgt := congrArg EngAction.target hin.symm
              subst hbt
              exact ⟨hb, hpl, ⟨s, hlk, hf⟩⟩
            · by_cases hammo : 1 ≤ ts.ammo
              · rw [if_pos hammo, List.mem_singleton] at hin
                exact absurd (congrArg EngAction.kind hin) (by simp)
              · rw [if_neg hammo] at hin
                simp at hin
          · rw [if_neg hf] at hin
            simp at hin
    · rintro ⟨hnb, hpl, ⟨s, hlk, hf⟩⟩
      refine ⟨tgt, hnb, ?_⟩
      rw [if_neg hpl]
      simp only [hlk]
      rw [if_pos hf]
      simp

/-- Witness for `legal_shoot_collide_iff` on the counterexample catalog:
its Shoot clause instantiated at the alpha seeker. -/
theorem legal_shoot_collide_iff_witness :
    ¬ ((10 : ℚ) ≤ 0) ∧
    (⟨EngKind.shoot, ⟨Player.beta, Role.bludger, 1⟩⟩ : EngAction) ∈
      legalEngagementActionsFor
        [(⟨Player.alpha, Role.seeker, 0⟩, ⟨10, 1, Role.seeker, 5⟩),
         (⟨Player.beta, Role.bludger, 1⟩, ⟨10, 0, Role.bludger, 5⟩)]
        [(⟨Player.alpha, Role.seeker, 0⟩, ⟨Player.beta, Role.bludger, 1⟩)]
        ⟨Player.alpha, Role.seeker, 0⟩ ⟨10, 1, Role.seeker, 5⟩ :=
  ⟨by norm_num,
    ((legal_shoot_collide_iff
        [(⟨Player.alpha, Role.seeker, 0⟩, ⟨10, 1, Role.seeker, 5⟩),
         (⟨Player.beta, Role.bludger, 1⟩, ⟨10, 0, Role.bludger, 5⟩)]
        [(⟨Player.alpha, Role.seeker, 0⟩, ⟨Player.beta, Role.bludger, 1⟩)]
        ⟨Player.alpha, Role.seeker, 0⟩ ⟨10, 1, Role.seeker, 5⟩
        (by norm_num) ⟨Player.beta, Role.bludger, 1⟩).1).mpr (by decide)⟩

/-! ## engagement_graph.py : EngagementGraph (claims C3, C4, C10)

The directed graph is a node list plus an edge list carrying
`(etype, prob)`.  `np.random.rand()` draws are an oracle stream of
rationals; `np.random.shuffle` is an oracle stream of index picks that
selects, step by step, which remaining element comes next — exactly the
permutations a real shuffle can produce. -/

structure GEdge where
  src : TokenId
  tar : TokenId
  etype : EngKind
  prob : ℚ
deriving DecidableEq, Repr

structure EGraph where
  nodes : List TokenId
  edges : List GEdge
deriving DecidableEq, Repr

/-- `networkx.DiGraph.remove_edge(s, t)` (a digraph holds at most one
edge per ordered pair, so filtering all `(s, t)`-named edges is its list
rendering). -/
def removeEdge (g : EGraph) (s t : TokenId) : EGraph :=
  { g with edges := g.edges.filter (fun e => !(e.src = s && e.tar = t)) }

/-- `networkx.DiGraph.add_edge`: overwrites the `(src, tar)` edge if
present, appends otherwise; adds missing endpoint nodes. -/
def addEdge (g : EGraph) (e : GEdge) : EGraph :=
  { nodes :=
      (if e.tar ∈ (if e.src ∈ g.nodes then g.nodes else g.nodes ++ [e.src])
       then (if e.src ∈ g.nodes then g.nodes else g.nodes ++ [e.src])
       else (if e.src ∈ g.nodes then g.nodes else g.nodes ++ [e.src]) ++ [e.tar]),
    edges := g.edges.filter (fun e' => !(e'.src = e.src && e'.tar = e.tar)) ++ [e] }

/-- `networkx.DiGraph.remove_nodes_from`: drops the nodes and every
incident edge. -/
def removeNodesFrom (g : EGraph) (ns : List TokenId) : EGraph :=
  { nodes := g.nodes.filter (fun x => !(x ∈ ns)),
    edges := g.edges.filter (fun e => !(e.src ∈ ns) && !(e.tar ∈ ns)) }

/-- `U.EngagementTuple`. -/
structure EngagementTuple where
  action_type : EngKind
  target : TokenId
  prob : ℚ
deriving DecidableEq, Repr

/-- One iteration of the `EngagementGraph.__init__` loop: check the
engagement's `assert` (returning `none` on failure) and add its edge. -/
def buildStep (g : EGraph) (pe : TokenId × EngagementTuple) : Option EGraph :=
  let piece := pe.1
  let et := pe.2
  match et.action_type with
  | EngKind.noop =>
    if piece = et.target then some g else none
  | EngKind.shoot =>
    if piece.player ≠ et.target.player
    then some (addEdge g ⟨piece, et.target, EngKind.shoot, et.prob⟩) else none
  | EngKind.collide =>
    if piece.player ≠ et.target.player
    then some (addEdge g ⟨piece, et.target, EngKind.collide, et.prob⟩) else none
  | EngKind.guard =>
    if piece.player = et.target.player ∧ piece ≠ et.target
    then some (addEdge g ⟨piece, et.target, EngKind.guard, et.prob⟩) else none

/-- `EngagementGraph.__init__`: nodes from the keys, one edge per
non-NoOp engagement; the `assert`s become `none`. -/
def buildEGraph (engs : List (TokenId × EngagementTuple)) : Option EGraph :=
  engs.foldlM buildStep { nodes := engs.map Prod.fst, edges := [] }

/-- `U.EngagementOutcomeTuple`; `attacker=None` (trivial guard) and
`guardian=''` (shoot/collide) are both rendered as `none`. -/
structure Outcome where
  action_type : EngKind
  attacker : Option TokenId
  target : TokenId
  guardian : Option TokenId
  prob : ℚ
  success : Bool
deriving DecidableEq, Repr

/-- Shuffle driven by an index-pick oracle, fuel-indexed for structural
recursion (fuel `≥ length` always suffices): pick the `(picks.head mod
length)`-th remaining element, recurse on the rest. -/
def shuffleByAux {α : Type} : ℕ → List α → Stream' ℕ → List α × Stream' ℕ
  | 0, _, picks => ([], picks)
  | _ + 1, [], picks => ([], picks)
  | fuel + 1, x :: xs, picks =>
    let l := x :: xs
    let i := picks.head % l.length
    let y := l.get ⟨i, Nat.mod_lt _ (Nat.succ_pos xs.length)⟩
    let rest := shuffleByAux fuel (l.eraseIdx i) picks.tail
    (y :: rest.1, rest.2)

/-- Oracle model of `np.random.shuffle`: returns some permutation of the
list (which one is decided by the pick stream) plus the unused oracle
tail. -/
def shuffleBy {α : Type} (l : List α) (picks : Stream' ℕ) :
    List α × Stream' ℕ :=
  shuffleByAux l.length l picks

theorem get_cons_eraseIdx_perm {α : Type} :
    ∀ (l : List α) (i : Fin l.length),
      List.Perm (l.get i :: l.eraseIdx i) l := by
  intro l
  induction l with
  | nil => intro i; exact absurd i.isLt (by simp)
  | cons x xs ih =>
    intro i
    match i with
    | ⟨0, _⟩ => simp [List.eraseIdx]
    | ⟨j + 1, hj⟩ =>
      have hj' : j < xs.length := by simpa using hj
      refine List.Perm.trans ?_
        (List.Perm.cons x (ih ⟨j, hj'⟩))
      exact List.Perm.swap x (xs.get ⟨j, hj'⟩) (xs.eraseIdx j)

theorem shuffleByAux_perm {α : Type} :
    ∀ (fuel : ℕ) (l : List α) (picks : Stream' ℕ), l.length ≤ fuel →
      List.Perm (shuffleByAux fuel l picks).1 l := by
  intro fuel
  induction fuel with
  | zero =>
    intro l picks h
    have hl : l = [] := List.length_eq_zero.mp (by omega)
    subst hl
    simp [shuffleByAux]
  | succ fuel ih =>
    intro l picks h
    match l with
    | [] => simp [shuffleByAux]
    | x :: xs =>
      simp only [shuffleByAux]
      have hm : picks.head % (x :: xs).length < (x :: xs).length :=
        Nat.mod_lt _ (Nat.succ_pos xs.length)
      have hlen : ((x :: xs).eraseIdx
          (picks.head % (x :: xs).length)).length ≤ fuel := by
        rw [List.length_eraseIdx]
        simp only [List.length_cons] at h hm ⊢
        split <;> omega
      refine List.Perm.trans (List.Perm.cons _ (ih _ picks.tail hlen)) ?_
      exact get_cons_eraseIdx_perm (x :: xs) _

theorem shuffleBy_perm {α : Type} (l : List α) (picks : Stream' ℕ) :
    List.Perm (shuffleBy l picks).1 l :=
  shuffleByAux_perm l.length l picks le_rfl

/-- State threaded through the resolution phases: the mutable graph, the
accumulated outcome list, and the two random-oracle streams. -/
structure RState where
  graph : EGraph
  outcomes : List Outcome
  picks : Stream' ℕ
  draws : Stream' ℚ

def guardEdgesOf (g : EGraph) : List GEdge :=
  g.edges.filter (fun e => e.etype = EngKind.guard)

def shootEdgesOf (g : EGraph) : List GEdge :=
  g.edges.filter (fun e => e.etype = EngKind.shoot)

def collideEdgesOf (g : EGraph) : List GEdge :=
  g.edges.filter (fun e => e.etype = EngKind.collide)

/-- The incident attack edges `in_att_edges` of the guarded piece. -/
def attackInEdges (g : EGraph) (tar : TokenId) : List GEdge :=
  g.edges.filter (fun e => e.tar = tar &&
    (e.etype = EngKind.shoot || e.etype = EngKind.collide))

/-- The inner loop of `resolve_guard_engagements`: the `k`-th (0-indexed)
incident attack is intercepted when the draw is below
`guard_prob * 0.5^k`; success removes the attack edge and reroutes it to
the guardian with the same kind and probability, and one outcome is
appended per attack. -/
def processAttacks (grdSrc grdTar : TokenId) (p : ℚ) :
    ℕ → List GEdge → RState → RState
  | _, [], st => st
  | k, att :: rest, st =>
    let dp := p * (1/2) ^ k
    let success : Bool := decide (st.draws.head < dp)
    let g' := if success
      then addEdge (removeEdge st.graph att.src att.tar)
        ⟨att.src, grdSrc, att.etype, att.prob⟩
      else st.graph
    processAttacks grdSrc grdTar p (k + 1) rest
      { graph := g',
        outcomes := st.outcomes ++
          [⟨EngKind.guard, some att.src, grdTar, some grdSrc, dp, success⟩],
        picks := st.picks,
        draws := st.draws.tail }

/-- Body of the guard loop for one guard edge: remove the guard edge,
collect incident attack edges; none → one trivial failed outcome;
otherwise process them in shuffled order. -/
def resolveGuardEdge (st : RState) (ge : GEdge) : RState :=
  let g1 := removeEdge st.graph ge.src ge.tar
  let atts := attackInEdges g1 ge.tar
  if atts.isEmpty then
    { graph := g1,
      outcomes := st.outcomes ++
        [⟨EngKind.guard, none, ge.tar, some ge.src, ge.prob, false⟩],
      picks := st.picks,
      draws := st.draws }
  else
    let sh := shuffleBy atts st.picks
    processAttacks ge.src ge.tar ge.prob 0 sh.1
      { graph := g1, outcomes := st.outcomes, picks := sh.2,
        draws := st.draws }

/-- `EngagementGraph.resolve_guard_engagements`. -/
def resolveGuardEngagements (st : RState) : RState :=
  let sh := shuffleBy (guardEdgesOf st.graph) st.picks
  sh.1.foldl resolveGuardEdge { st with picks := sh.2 }

/-- Python `set.add` on the node-removal set (kept as a duplicate-free
list). -/
def insertToken (t : TokenId) (l : List TokenId) : List TokenId :=
  if t ∈ l then l else l ++ [t]

/-- The loop of `resolve_shoot_engagements`: remove each shoot edge,
flip its probability, queue the target on success, append one outcome. -/
def processShoots :
    List GEdge → RState → List TokenId → RState × List TokenId
  | [], st, rem => (st, rem)
  | e :: rest, st, rem =>
    let success : Bool := decide (st.draws.head < e.prob)
    let rem' := if success then insertToken e.tar rem else rem
    processShoots rest
      { graph := removeEdge st.graph e.src e.tar,
        outcomes := st.outcomes ++
          [⟨EngKind.shoot, some e.src, e.tar, none, e.prob, success⟩],
        picks := st.picks,
        draws := st.draws.tail }
      rem'

/-- `EngagementGraph.resolve_shoot_engagements`: process all shoot edges
in shuffled order, then remove the queued nodes simultaneously. -/
def resolveShootEngagements (st : RState) : RState :=
  let sh := shuffleBy (shootEdgesOf st.graph) st.picks
  let res := processShoots sh.1 { st with picks := sh.2 } []
  { res.1 with graph := removeNodesFrom res.1.graph res.2 }

/-- The node-removal set computed by the shoot phase (`node_removal_set`
in the Python; recomputed here from the same state and oracle streams). -/
def shootRemovalSet (st : RState) : List TokenId :=
  let sh := shuffleBy (shootEdgesOf st.graph) st.picks
  (processShoots sh.1 { st with picks := sh.2 } []).2

theorem length_filter_and_le {α : Type} (p q : α → Bool) (l : List α) :
    (l.filter (fun a => p a && q a)).length ≤ (l.filter p).length := by
  induction l with
  | nil => simp
  | cons x xs ih =>
    simp only [List.filter_cons]
    cases hp : p x <;> cases hq : q x <;> simp [hp, hq] <;> omega

theorem length_filter_and_lt {α : Type} (p q : α → Bool) (l : List α)
    (x : α) (hx : x ∈ l) (hp : p x = true) (hq : q x = false) :
    (l.filter (fun a => p a && q a)).length < (l.filter p).length := by
  induction l with
  | nil => exact absurd hx (by simp)
  | cons y ys ih =>
    simp only [List.filter_cons]
    rcases List.mem_cons.mp hx with hxy | hxys
    · subst hxy
      have hle := length_filter_and_le p q ys
      simp [hp, hq]
      omega
    · have hys := ih hxys
      cases hpy : p y <;> cases hqy : q y <;> simp [hpy, hqy] <;> omega

/-- Collide-edge count decreases when a collide edge of the graph is
removed by name. -/
theorem collide_count_removeEdge_lt (g : EGraph) (e : GEdge)
    (he : e ∈ g.edges) (het : e.etype = EngKind.collide) :
    (collideEdgesOf (removeEdge g e.src e.tar)).length <
      (collideEdgesOf g).length := by
  unfold collideEdgesOf removeEdge
  simp only [List.filter_filter]
  exact length_filter_and_lt _ _ g.edges e he (by simp [het]) (by simp)


theorem collide_count_removeNodesFrom_le (g : EGraph) (ns : List TokenId) :
    (collideEdgesOf (removeNodesFrom g ns)).length ≤
      (collideEdgesOf g).length := by
  unfold collideEdgesOf removeNodesFrom
  simp only [List.filter_filter]
  exact length_filter_and_le _ _ g.edges

theorem mem_collideEdgesOf (g : EGraph) (e : GEdge) :
    e ∈ collideEdgesOf g ↔ e ∈ g.edges ∧ e.etype = EngKind.collide := by
  unfold collideEdgesOf
  rw [List.mem_filter]
  simp

/-- Both branches of one collide-loop iteration strictly decrease the
collide-edge count. -/
theorem collide_count_branch_lt (g : EGraph) (e : GEdge)
    (he : e ∈ collideEdgesOf g) :
    ((collideEdgesOf (removeNodesFrom (removeEdge g e.src e.tar)
        [e.src, e.tar])).length < (collideEdgesOf g).length) ∧
    ((collideEdgesOf (removeEdge g e.src e.tar)).length <
        (collideEdgesOf g).length) := by
  have hme := (mem_collideEdgesOf g e).mp he
  have h1 := collide_count_removeEdge_lt g e hme.1 hme.2
  have h2 := collide_count_removeNodesFrom_le
    (removeEdge g e.src e.tar) [e.src, e.tar]
  exact ⟨by omega, h1⟩

/-- `EngagementGraph.resolve_collide_engagements`: while collide edges
remain, pick one at random (pick oracle), remove it, flip its
probability; success removes both endpoint nodes; append one outcome per
evaluation. -/
def resolveCollideEngagements (st : RState) : RState :=
  match hc : collideEdgesOf st.graph with
  | [] => st
  | ce :: ces =>
    let l := ce :: ces
    let e := l.get ⟨st.picks.head % l.length,
      Nat.mod_lt _ (Nat.succ_pos ces.length)⟩
    let g1 := removeEdge st.graph e.src e.tar
    let success : Bool := decide (st.draws.head < e.prob)
    let g2 := if success then removeNodesFrom g1 [e.src, e.tar] else g1
    resolveCollideEngagements
      { graph := g2,
        outcomes := st.outcomes ++
          [⟨EngKind.collide, some e.src, e.tar, none, e.prob, success⟩],
        picks := st.picks.tail,
        draws := st.draws.tail }
termination_by (collideEdgesOf st.graph).length
decreasing_by
  have hmem : (ce :: ces).get ⟨st.picks.head % (ce :: ces).length,
      Nat.mod_lt _ (Nat.succ_pos ces.length)⟩ ∈ collideEdgesOf st.graph := by
    rw [hc]
    exact List.get_mem _ _ _
  split
  · exact (collide_count_branch_lt st.graph _ hmem).1
  · exact (collide_count_branch_lt st.graph _ hmem).2

/-- `EngagementGraph` resolution order inside `KOTHGame.resolve_engagements`:
guards, then shoots, then collides. -/
def resolveAllEngagements (st : RState) : RState :=
  resolveCollideEngagements (resolveShootEngagements (resolveGuardEngagements st))

/-- `KOTHGame.resolve_engagements`: build the graph (its `assert`s become
`none`), prune pieces whose fuel is `≤ min_fuel`, then run the three
phases. -/
def kothResolveEngagements (cat : Catalog) (minFuel : ℚ)
    (engs : List (TokenId × EngagementTuple))
    (picks : Stream' ℕ) (draws : Stream' ℚ) : Option RState :=
  (buildEGraph engs).map (fun eg =>
    let zeroFuel := (cat.filter (fun p => p.2.fuel ≤ minFuel)).map Prod.fst
    resolveAllEngagements
      ⟨removeNodesFrom eg zeroFuel, [], picks, draws⟩)

/-! ### Membership lemmas for the graph operations -/

theorem mem_removeEdge {g : EGraph} {s t : TokenId} {e : GEdge} :
    e ∈ (removeEdge g s t).edges ↔
      e ∈ g.edges ∧ ¬(e.src = s ∧ e.tar = t) := by
  unfold removeEdge
  rw [List.mem_filter]
  simp
  tauto

theorem mem_addEdge {g : EGraph} {e0 e : GEdge} :
    e ∈ (addEdge g e0).edges ↔
      (e ∈ g.edges ∧ ¬(e.src = e0.src ∧ e.tar = e0.tar)) ∨ e = e0 := by
  unfold addEdge
  rw [List.mem_append, List.mem_filter]
  simp
  tauto

theorem mem_removeNodesFrom {g : EGraph} {ns : List TokenId} {e : GEdge} :
    e ∈ (removeNodesFrom g ns).edges ↔
      e ∈ g.edges ∧ e.src ∉ ns ∧ e.tar ∉ ns := by
  unfold removeNodesFrom
  rw [List.mem_filter]
  simp

theorem mem_guardEdgesOf {g : EGraph} {e : GEdge} :
    e ∈ guardEdgesOf g ↔ e ∈ g.edges ∧ e.etype = EngKind.guard := by
  unfold guardEdgesOf
  rw [List.mem_filter]
  simp

theorem mem_shootEdgesOf {g : EGraph} {e : GEdge} :
    e ∈ shootEdgesOf g ↔ e ∈ g.edges ∧ e.etype = EngKind.shoot := by
  unfold shootEdgesOf
  rw [List.mem_filter]
  simp

theorem mem_attackInEdges {g : EGraph} {t : TokenId} {e : GEdge} :
    e ∈ attackInEdges g t ↔ e ∈ g.edges ∧ e.tar = t ∧
      (e.etype = EngKind.shoot ∨ e.etype = EngKind.collide) := by
  unfold attackInEdges
  rw [List.mem_filter]
  simp

/-! ### Guard phase: every guard edge is consumed (toward claim C4) -/

/-- `processAttacks` can only add attack-typed edges: an edge of the
result whose type is not among the attack types was already present. -/
theorem processAttacks_etype_mono (κ : EngKind) (gs gt : TokenId) (p : ℚ) :
    ∀ (atts : List GEdge) (k : ℕ) (st : RState),
      (∀ a ∈ atts, a.etype ≠ κ) →
      ∀ e ∈ (processAttacks gs gt p k atts st).graph.edges,
        e.etype = κ → e ∈ st.graph.edges := by
  intro atts
  induction atts with
  | nil =>
    intro k st _ e he _
    exact he
  | cons a rest ih =>
    intro k st hty e he hge
    rw [processAttacks] at he
    have he' := ih (k + 1) _ (fun x hx => hty x (List.mem_cons_of_mem a hx)) e he hge
    dsimp only at he'
    by_cases hsuc : decide (st.draws.head < p * (1/2) ^ k) = true
    · rw [if_pos hsuc] at he'
      rcases mem_addEdge.mp he' with ⟨hmem, _⟩ | heq
      · exact (mem_removeEdge.mp hmem).1
      · rw [heq] at hge
        exact absurd hge (hty a (List.mem_cons_self a rest))
    · rw [if_neg hsuc] at he'
      exact he'

/-- An edge of non-attack type surviving `resolveGuardEdge` was already
present and is not the processed guard edge (by name). -/
theorem resolveGuardEdge_etype_mono (κ : EngKind) (hκ1 : κ ≠ EngKind.shoot)
    (hκ2 : κ ≠ EngKind.collide) (st : RState) (ge : GEdge) :
    ∀ e ∈ (resolveGuardEdge st ge).graph.edges,
      e.etype = κ →
        e ∈ st.graph.edges ∧ ¬(e.src = ge.src ∧ e.tar = ge.tar) := by
  intro e he hge
  unfold resolveGuardEdge at he
  by_cases hemp : (attackInEdges (removeEdge st.graph ge.src ge.tar) ge.tar).isEmpty
  · rw [if_pos hemp] at he
    exact mem_removeEdge.mp he
  · rw [if_neg hemp] at he
    have hty : ∀ a ∈ (shuffleBy (attackInEdges
        (removeEdge st.graph ge.src ge.tar) ge.tar) st.picks).1,
        a.etype ≠ κ := by
      intro a ha
      have := (shuffleBy_perm _ st.picks).mem_iff.mp ha
      rcases (mem_attackInEdges.mp this).2.2 with h | h <;> rw [h] <;>
        [exact fun hh => hκ1 hh.symm; exact fun hh => hκ2 hh.symm]
    have := processAttacks_etype_mono κ ge.src ge.tar ge.prob _ 0 _ hty e he hge
    exact mem_removeEdge.mp this

/-- Folding the guard loop: a surviving edge of non-attack type was
present initially and matches no processed guard edge. -/
theorem foldl_resolveGuardEdge_etype_mono (κ : EngKind)
    (hκ1 : κ ≠ EngKind.shoot) (hκ2 : κ ≠ EngKind.collide) :
    ∀ (gs : List GEdge) (st : RState),
      ∀ e ∈ (gs.foldl resolveGuardEdge st).graph.edges,
        e.etype = κ →
          e ∈ st.graph.edges ∧
            ∀ ge ∈ gs, ¬(e.src = ge.src ∧ e.tar = ge.tar) := by
  intro gs
  induction gs with
  | nil =>
    intro st e he hge
    exact ⟨he, by simp⟩
  | cons g0 rest ih =>
    intro st e he hge
    rw [List.foldl_cons] at he
    obtain ⟨h1, h2⟩ := ih _ e he hge
    obtain ⟨h3, h4⟩ := resolveGuardEdge_etype_mono κ hκ1 hκ2 st g0 e h1 hge
    refine ⟨h3, ?_⟩
    intro ge hgemem
    rcases List.mem_cons.mp hgemem with hh | hh
    · subst hh; exact h4
    · exact h2 ge hh

/-- After `resolve_guard_engagements` no guard edge remains. -/
theorem resolveGuardEngagements_no_guard (st : RState) :
    guardEdgesOf (resolveGuardEngagements st).graph = [] := by
  rw [List.eq_nil_iff_forall_not_mem]
  intro e hmem
  rw [mem_guardEdgesOf] at hmem
  obtain ⟨hein, hety⟩ := hmem
  unfold resolveGuardEngagements at hein
  obtain ⟨h1, h2⟩ := foldl_resolveGuardEdge_etype_mono EngKind.guard
    (by simp) (by simp) _ _ e hein hety
  have heg : e ∈ guardEdgesOf st.graph := mem_guardEdgesOf.mpr ⟨h1, hety⟩
  have hshuf : e ∈ (shuffleBy (guardEdgesOf st.graph) st.picks).1 :=
    (shuffleBy_perm _ st.picks).mem_iff.mpr heg
  exact h2 e hshuf ⟨rfl, rfl⟩

/-! ### Shoot phase (toward claims C4 and C10) -/

/-- `processShoots` only removes edges, by the names of the processed
shoot edges. -/
theorem processShoots_graph_mono :
    ∀ (L : List GEdge) (st : RState) (rem : List TokenId),
      ∀ e ∈ (processShoots L st rem).1.graph.edges,
        e ∈ st.graph.edges ∧ ∀ a ∈ L, ¬(e.src = a.src ∧ e.tar = a.tar) := by
  intro L
  induction L with
  | nil =>
    intro st rem e he
    exact ⟨he, by simp⟩
  | cons a rest ih =>
    intro st rem e he
    rw [processShoots] at he
    obtain ⟨h1, h2⟩ := ih _ _ e he
    dsimp only at h1
    obtain ⟨h3, h4⟩ := mem_removeEdge.mp h1
    refine ⟨h3, ?_⟩
    intro b hb
    rcases List.mem_cons.mp hb with hh | hh
    · subst hh; exact h4
    · exact h2 b hh

/-- The accumulated outcomes and removal set of `processShoots`: one new
shoot outcome per processed edge, and the removal set grows by exactly
the targets of the successful new outcomes. -/
theorem processShoots_outcomes :
    ∀ (L : List GEdge) (st : RState) (rem : List TokenId),
      ∃ news, (processShoots L st rem).1.outcomes = st.outcomes ++ news ∧
        (∀ o ∈ news, o.action_type = EngKind.shoot ∧
          ∃ a ∈ L, o.attacker = some a.src ∧ o.target = a.tar) ∧
        (∀ t, t ∈ (processShoots L st rem).2 ↔
          t ∈ rem ∨ ∃ o ∈ news, o.success = true ∧ o.target = t) := by
  intro L
  induction L with
  | nil =>
    intro st rem
    refine ⟨[], by simp [processShoots], by simp, ?_⟩
    intro t
    simp [processShoots]
  | cons a rest ih =>
    intro st rem
    rw [processShoots]
    set o0 : Outcome := ⟨EngKind.shoot, some a.src, a.tar, none, a.prob,
      decide (st.draws.head < a.prob)⟩ with ho0
    obtain ⟨news, hn1, hn2, hn3⟩ := ih
      { graph := removeEdge st.graph a.src a.tar,
        outcomes := st.outcomes ++ [o0],
        picks := st.picks,
        draws := st.draws.tail }
      (if decide (st.draws.head < a.prob) = true
       then insertToken a.tar rem else rem)
    refine ⟨o0 :: news, ?_, ?_, ?_⟩
    · rw [hn1]
      simp
    · intro o ho
      rcases List.mem_cons.mp ho with hh | hh
      · subst hh
        exact ⟨rfl, a, List.mem_cons_self a rest, rfl, rfl⟩
      · obtain ⟨ha1, b, hb, ha2⟩ := hn2 o hh
        exact ⟨ha1, b, List.mem_cons_of_mem a hb, ha2⟩
    · intro t
      rw [hn3 t]
      unfold insertToken
      by_cases hsuc : decide (st.draws.head < a.prob) = true
      · rw [if_pos hsuc]
        by_cases htr : a.tar ∈ rem
        · rw [if_pos htr]
          constructor
          · rintro (h | ⟨o, ho, hos, hot⟩)
            · exact Or.inl h
            · exact Or.inr ⟨o, List.mem_cons_of_mem o0 ho, hos, hot⟩
          · rintro (h | ⟨o, ho, hos, hot⟩)
            · exact Or.inl h
            · rcases List.mem_cons.mp ho with hh | hh
              · subst hh
                rw [← hot]
                exact Or.inl htr
              · exact Or.inr ⟨o, hh, hos, hot⟩
        · rw [if_neg htr]
          constructor
          · rintro (h | ⟨o, ho, hos, hot⟩)
            · rcases List.mem_append.mp h with h | h
              · exact Or.inl h
              · rw [List.mem_singleton] at h
                subst h
                exact Or.inr ⟨o0, List.mem_cons_self o0 news, hsuc, rfl⟩
            · exact Or.inr ⟨o, List.mem_cons_of_mem o0 ho, hos, hot⟩
          · rintro (h | ⟨o, ho, hos, hot⟩)
            · exact Or.inl (List.mem_append.mpr (Or.inl h))
            · rcases List.mem_cons.mp ho with hh | hh
              · subst hh
                rw [← hot]
                exact Or.inl (List.mem_append.mpr (Or.inr (by simp)))
              · exact Or.inr ⟨o, hh, hos, hot⟩
      · rw [if_neg hsuc]
        constructor
        · rintro (h | ⟨o, ho, hos, hot⟩)
          · exact Or.inl h
          · exact Or.inr ⟨o, List.mem_cons_of_mem o0 ho, hos, hot⟩
        · rintro (h | ⟨o, ho, hos, hot⟩)
          · exact Or.inl h
          · rcases List.mem_cons.mp ho with hh | hh
            · subst hh
              rw [ho0] at hos
              exact absurd hos hsuc
            · exact Or.inr ⟨o, hh, hos, hot⟩

/-- After `resolve_shoot_engagements` no shoot edge remains, every
surviving edge avoids the removal set, and surviving edges come from the
input graph. -/
theorem resolveShootEngagements_graph (st : RState) :
    ∀ e ∈ (resolveShootEngagements st).graph.edges,
      e ∈ st.graph.edges ∧ e.etype ≠ EngKind.shoot ∧
        e.src ∉ shootRemovalSet st ∧ e.tar ∉ shootRemovalSet st := by
  intro e he
  unfold resolveShootEngagements at he
  dsimp only at he
  obtain ⟨h1, h2, h3⟩ := mem_removeNodesFrom.mp he
  obtain ⟨h4, h5⟩ := processShoots_graph_mono _ _ _ e h1
  refine ⟨h4, ?_, h2, h3⟩
  intro hty
  have hse : e ∈ shootEdgesOf st.graph := mem_shootEdgesOf.mpr ⟨h4, hty⟩
  have hsh : e ∈ (shuffleBy (shootEdgesOf st.graph) st.picks).1 :=
    (shuffleBy_perm _ st.picks).mem_iff.mpr hse
  exact h5 e hsh ⟨rfl, rfl⟩

/-! ### Collide phase (toward claims C4 and C10) -/

/-- The collide loop terminates (the definition is total), only removes
edges, ends with no collide edge, and each new outcome records a collide
edge of the input graph. -/
theorem resolveCollideEngagements_spec :
    ∀ (n : ℕ) (st : RState), (collideEdgesOf st.graph).length = n →
      (∀ e ∈ (resolveCollideEngagements st).graph.edges,
        e ∈ st.graph.edges) ∧
      collideEdgesOf (resolveCollideEngagements st).graph = [] ∧
      ∃ news, (resolveCollideEngagements st).outcomes =
          st.outcomes ++ news ∧
        ∀ o ∈ news, o.action_type = EngKind.collide ∧
          ∃ e, e ∈ st.graph.edges ∧ e.etype = EngKind.collide ∧
            o.attacker = some e.src ∧ o.target = e.tar := by
  intro n
  induction n using Nat.strong_induction_on with
  | _ n ih =>
    intro st hlen
    rw [resolveCollideEngagements]
    split
    · rename_i hc
      refine ⟨fun e he => he, hc, [], by simp, by simp⟩
    · rename_i ce ces hc
      set e := (ce :: ces).get ⟨st.picks.head % (ce :: ces).length,
        Nat.mod_lt _ (Nat.succ_pos ces.length)⟩ with hedef
      have hemem : e ∈ collideEdgesOf st.graph := by
        rw [hc, hedef]
        exact List.get_mem _ _ _
      have heme := (mem_collideEdgesOf st.graph e).mp hemem
      have hlt := collide_count_branch_lt st.graph e hemem
      set g2 := if decide (st.draws.head < e.prob) = true
        then removeNodesFrom (removeEdge st.graph e.src e.tar)
          [e.src, e.tar]
        else removeEdge st.graph e.src e.tar with hg2
      set st' : RState :=
        { graph := g2,
          outcomes := st.outcomes ++
            [⟨EngKind.collide, some e.src, e.tar, none, e.prob,
              decide (st.draws.head < e.prob)⟩],
          picks := st.picks.tail,
          draws := st.draws.tail } with hst'
      have hg2sub : ∀ x ∈ g2.edges, x ∈ st.graph.edges := by
        intro x hx
        rw [hg2] at hx
        by_cases hsuc : decide (st.draws.head < e.prob) = true
        · rw [if_pos hsuc] at hx
          exact (mem_removeEdge.mp (mem_removeNodesFrom.mp hx).1).1
        · rw [if_neg hsuc] at hx
          exact (mem_removeEdge.mp hx).1
      have hmeas : (collideEdgesOf st'.graph).length < n := by
        rw [hst']
        dsimp only
        rw [hg2]
        by_cases hsuc : decide (st.draws.head < e.prob) = true
        · rw [if_pos hsuc]
          omega
        · rw [if_neg hsuc]
          omega
      obtain ⟨ih1, ih2, news', ihn1, ihn2⟩ := ih _ hmeas st' rfl
      refine ⟨?_, ih2, ?_⟩
      · intro x hx
        exact hg2sub x (ih1 x hx)
      · refine ⟨⟨EngKind.collide, some e.src, e.tar, none, e.prob,
          decide (st.draws.head < e.prob)⟩ :: news', ?_, ?_⟩
        · rw [ihn1, hst']
          simp
        · intro o ho
          rcases List.mem_cons.mp ho with hh | hh
          · subst hh
            exact ⟨rfl, e, heme.1, heme.2, rfl, rfl⟩
          · obtain ⟨ho1, e', he'1, he'2, he'3⟩ := ihn2 o hh
            exact ⟨ho1, e', hg2sub e' he'1, he'2, he'3⟩

/-! ### Claim C4: complete resolution leaves zero edges -/

theorem buildStep_no_noop (g g' : EGraph) (pe : TokenId × EngagementTuple)
    (h : ∀ e ∈ g.edges, e.etype ≠ EngKind.noop)
    (hs : buildStep g pe = some g') :
    ∀ e ∈ g'.edges, e.etype ≠ EngKind.noop := by
  unfold buildStep at hs
  dsimp only at hs
  rcases hty : pe.2.action_type with _ | _ | _ | _ <;> rw [hty] at hs <;>
    dsimp only at hs
  · split at hs
    · rw [Option.some_inj.mp hs] at h
      exact h
    · exact Option.noConfusion hs
  all_goals (
    split at hs
    · rw [← Option.some_inj.mp hs]
      intro e he
      rcases mem_addEdge.mp he with ⟨hmem, _⟩ | heq
      · exact h e hmem
      · rw [heq]
        simp
    · exact Option.noConfusion hs)

theorem buildEGraph_fold_no_noop :
    ∀ (engs : List (TokenId × EngagementTuple)) (g0 : EGraph),
      (∀ e ∈ g0.edges, e.etype ≠ EngKind.noop) →
      ∀ g, List.foldlM buildStep g0 engs = some g →
        ∀ e ∈ g.edges, e.etype ≠ EngKind.noop := by
  intro engs
  induction engs with
  | nil =>
    intro g0 h0 g hfold
    simp only [List.foldlM_nil] at hfold
    rw [← Option.some_inj.mp hfold]
    exact h0
  | cons pe rest ih =>
    intro g0 h0 g hfold
    simp only [List.foldlM_cons] at hfold
    cases hstep : buildStep g0 pe with
    | none => rw [hstep] at hfold; exact Option.noConfusion hfold
    | some g1 =>
      rw [hstep] at hfold
      exact ih g1 (buildStep_no_noop g0 g1 pe h0 hstep) g hfold

theorem buildEGraph_no_noop (engs : List (TokenId × EngagementTuple))
    (g : EGraph) (h : buildEGraph engs = some g) :
    ∀ e ∈ g.edges, e.etype ≠ EngKind.noop :=
  buildEGraph_fold_no_noop engs _ (by simp) g h

/-- Claim C4.  For every engagement-declaration map accepted by the
`EngagementGraph` constructor, `KOTHGame.resolve_engagements` — guard,
shoot, then collide resolution — leaves the engagement graph with zero
edges: the collide while-loop terminates (the model is a total function)
and the final zero-edge assertion never fails. -/
theorem resolve_engagements_zero_edges (cat : Catalog) (minFuel : ℚ)
    (engs : List (TokenId × EngagementTuple))
    (picks : Stream' ℕ) (draws : Stream' ℚ) (st : RState)
    (h : kothResolveEngagements cat minFuel engs picks draws = some st) :
    st.graph.edges = [] := by
  unfold kothResolveEngagements at h
  cases hb : buildEGraph engs with
  | none =>
    rw [hb] at h
    exact Option.noConfusion h
  | some g =>
    rw [hb] at h
    simp only [Option.map_some] at h
    have hst := (Option.some_inj.mp h).symm
    set st0 : RState :=
      ⟨removeNodesFrom g ((cat.filter
          (fun p => p.2.fuel ≤ minFuel)).map Prod.fst), [], picks, draws⟩
      with hst0
    have hst' : st = resolveCollideEngagements
        (resolveShootEngagements (resolveGuardEngagements st0)) := by
      rw [hst]
      rfl
    obtain ⟨c1, c2, -⟩ := resolveCollideEngagements_spec _
      (resolveShootEngagements (resolveGuardEngagements st0)) rfl
    rw [List.eq_nil_iff_forall_not_mem]
    intro e he
    rw [hst'] at he
    have he2 := c1 e he
    obtain ⟨he1, hnshoot, -, -⟩ :=
      resolveShootEngagements_graph (resolveGuardEngagements st0) e he2
    rcases hety : e.etype with _ | _ | _ | _
    · -- noop edges never exist
      have he0 := (foldl_resolveGuardEdge_etype_mono EngKind.noop
        (by simp) (by simp) _ _ e he1 hety).1
      have he0' := mem_removeNodesFrom.mp he0
      exact buildEGraph_no_noop engs g hb e he0'.1 hety
    · -- shoot edges are consumed by the shoot phase
      exact hnshoot hety
    · -- collide edges are consumed by the collide phase
      have : e ∈ collideEdgesOf st.graph := by
        rw [mem_collideEdgesOf]
        exact ⟨by rw [hst']; exact he, hety⟩
      rw [hst', c2] at this
      exact absurd this (by simp)
    · -- guard edges are consumed by the guard phase
      have : e ∈ guardEdgesOf (resolveGuardEngagements st0).graph :=
        mem_guardEdgesOf.mpr ⟨he1, hety⟩
      rw [resolveGuardEngagements_no_guard st0] at this
      exact absurd this (by simp)

/-- Witness for `resolve_engagements_zero_edges`: one alpha bludger
shoots the beta seeker, which is guarded by a beta bludger; the
resolution leaves no edges. -/
theorem resolve_engagements_zero_edges_witness :
    ∃ st, kothResolveEngagements
        [((⟨Player.alpha, Role.bludger, 1⟩ : TokenId),
            (⟨100, 4, Role.bludger, 1⟩ : TokenState)),
         (⟨Player.beta, Role.seeker, 0⟩, ⟨100, 0, Role.seeker, 1⟩),
         (⟨Player.beta, Role.bludger, 1⟩, ⟨100, 4, Role.bludger, 1⟩)]
        0
        [(⟨Player.alpha, Role.bludger, 1⟩,
            ⟨EngKind.shoot, ⟨Player.beta, Role.seeker, 0⟩, 1⟩),
         (⟨Player.beta, Role.seeker, 0⟩,
            ⟨EngKind.noop, ⟨Player.beta, Role.seeker, 0⟩, 1⟩),
         (⟨Player.beta, Role.bludger, 1⟩,
            ⟨EngKind.guard, ⟨Player.beta, Role.seeker, 0⟩, 1⟩)]
        (fun _ => 0) (fun _ => 0) = some st ∧
      st.graph.edges = [] := by
  cases hres : kothResolveEngagements
      [((⟨Player.alpha, Role.bludger, 1⟩ : TokenId),
          (⟨100, 4, Role.bludger, 1⟩ : TokenState)),
       (⟨Player.beta, Role.seeker, 0⟩, ⟨100, 0, Role.seeker, 1⟩),
       (⟨Player.beta, Role.bludger, 1⟩, ⟨100, 4, Role.bludger, 1⟩)]
      0
      [(⟨Player.alpha, Role.bludger, 1⟩,
          ⟨EngKind.shoot, ⟨Player.beta, Role.seeker, 0⟩, 1⟩),
       (⟨Player.beta, Role.seeker, 0⟩,
          ⟨EngKind.noop, ⟨Player.beta, Role.seeker, 0⟩, 1⟩),
       (⟨Player.beta, Role.bludger, 1⟩,
          ⟨EngKind.guard, ⟨Player.beta, Role.seeker, 0⟩, 1⟩)]
      (fun _ => 0) (fun _ => 0) with
  | none =>
    unfold kothResolveEngagements at hres
    cases hb : buildEGraph
        [(⟨Player.alpha, Role.bludger, 1⟩,
            ⟨EngKind.shoot, ⟨Player.beta, Role.seeker, 0⟩, 1⟩),
         (⟨Player.beta, Role.seeker, 0⟩,
            ⟨EngKind.noop, ⟨Player.beta, Role.seeker, 0⟩, 1⟩),
         (⟨Player.beta, Role.bludger, 1⟩,
            ⟨EngKind.guard, ⟨Player.beta, Role.seeker, 0⟩, 1⟩)] with
    | none => exact absurd hb (by decide)
    | some g =>
      rw [hb] at hres
      exact Option.noConfusion hres
  | some st =>
    exact ⟨st, rfl, resolve_engagements_zero_edges _ 0 _ _ _ st hres⟩

/-- Claim C10.  During shoot resolution, the node-removal set is exactly
the set of targets of successful shoot outcomes; removing those nodes
after the shoot iteration deletes every remaining edge incident to them
(collide edges in particular); and no collide outcome of the subsequent
collide resolution is ever emitted for an engagement declared by or
against such a destroyed token. -/
theorem shoot_destroyed_tokens_isolated (st : RState) :
    (∀ e ∈ (resolveShootEngagements st).graph.edges,
      e.src ∉ shootRemovalSet st ∧ e.tar ∉ shootRemovalSet st) ∧
    (∃ snews, (resolveShootEngagements st).outcomes =
        st.outcomes ++ snews ∧
      (∀ o ∈ snews, o.action_type = EngKind.shoot) ∧
      (∀ t, t ∈ shootRemovalSet st ↔
        ∃ o ∈ snews, o.success = true ∧ o.target = t)) ∧
    (∃ cnews, (resolveCollideEngagements
          (resolveShootEngagements st)).outcomes =
        (resolveShootEngagements st).outcomes ++ cnews ∧
      ∀ o ∈ cnews, o.action_type = EngKind.collide ∧
        ∀ t ∈ shootRemovalSet st, o.attacker ≠ some t ∧ o.target ≠ t) := by
  have hiso : ∀ e ∈ (resolveShootEngagements st).graph.edges,
      e.src ∉ shootRemovalSet st ∧ e.tar ∉ shootRemovalSet st := by
    intro e he
    obtain ⟨-, -, h3, h4⟩ := resolveShootEngagements_graph st e he
    exact ⟨h3, h4⟩
  refine ⟨hiso, ?_, ?_⟩
  · obtain ⟨news, hn1, hn2, hn3⟩ := processShoots_outcomes
      (shuffleBy (shootEdgesOf st.graph) st.picks).1
      { st with picks := (shuffleBy (shootEdgesOf st.graph) st.picks).2 }
      []
    refine ⟨news, hn1, fun o ho => (hn2 o ho).1, ?_⟩
    intro t
    rw [show (t ∈ shootRemovalSet st) =
      (t ∈ (processShoots (shuffleBy (shootEdgesOf st.graph) st.picks).1
        { st with picks := (shuffleBy (shootEdgesOf st.graph) st.picks).2 }
        []).2) from rfl]
    rw [hn3 t]
    simp
  · obtain ⟨cnews, hc1, hc2⟩ :=
      (resolveCollideEngagements_spec _ (resolveShootEngagements st) rfl).2.2
    refine ⟨cnews, hc1, ?_⟩
    intro o ho
    obtain ⟨hty, e, he, -, hatt, htar⟩ := hc2 o ho
    obtain ⟨hsrc, htar'⟩ := hiso e he
    refine ⟨hty, ?_⟩
    intro t ht
    constructor
    · intro hc
      rw [hatt] at hc
      rw [← Option.some_inj.mp hc] at ht
      exact hsrc ht
    · intro hc
      rw [hc] at htar
      rw [htar] at ht
      exact htar' ht

/-! ### Claim C3: per-guard-edge resolution

In a graph built from an engagement dict every node has at most one
outgoing edge, i.e. edge sources are pairwise distinct (`srcNodup`);
this is the invariant that makes the per-edge bookkeeping below exact. -/

def srcNodup (g : EGraph) : Prop := (g.edges.map GEdge.src).Nodup

theorem srcNodup_removeEdge {g : EGraph} {s t : TokenId}
    (h : srcNodup g) : srcNodup (removeEdge g s t) :=
  ((List.filter_sublist _).map GEdge.src).nodup h

theorem srcNodup_removeNodesFrom {g : EGraph} {ns : List TokenId}
    (h : srcNodup g) : srcNodup (removeNodesFrom g ns) :=
  ((List.filter_sublist _).map GEdge.src).nodup h

/-- Two edges of a `srcNodup` graph with the same source coincide. -/
theorem srcNodup_inj {g : EGraph} (h : srcNodup g) {a b : GEdge}
    (ha : a ∈ g.edges) (hb : b ∈ g.edges) (hs : a.src = b.src) : a = b :=
  List.inj_on_of_nodup_map h ha hb hs

/-- `processAttacks` never removes an edge whose source is not among the
processed attackers. -/
theorem processAttacks_keep (gs gt : TokenId) (p : ℚ) :
    ∀ (atts : List GEdge) (k : ℕ) (st : RState) (e : GEdge),
      e ∈ st.graph.edges → e.src ∉ atts.map GEdge.src →
      e ∈ (processAttacks gs gt p k atts st).graph.edges := by
  intro atts
  induction atts with
  | nil =>
    intro k st e he _
    exact he
  | cons a rest ih =>
    intro k st e he hsrc
    rw [processAttacks]
    have hsrca : e.src ≠ a.src := by
      intro hc
      exact hsrc (by rw [List.map_cons, List.mem_cons]; exact Or.inl hc)
    have hsrcr : e.src ∉ rest.map GEdge.src := by
      intro hc
      exact hsrc (by rw [List.map_cons, List.mem_cons]; exact Or.inr hc)
    apply ih
    · dsimp only
      by_cases hsuc : decide (st.draws.head < p * (1/2) ^ k) = true
      · rw [if_pos hsuc]
        rw [mem_addEdge]
        exact Or.inl ⟨mem_removeEdge.mpr ⟨he, fun hc => hsrca hc.1⟩,
          fun hc => hsrca hc.1⟩
      · rw [if_neg hsuc]
        exact he
    · exact hsrcr

/-- Every edge of a `processAttacks` result either was present or is one
of the rerouted attacks. -/
theorem processAttacks_origin (gs gt : TokenId) (p : ℚ) :
    ∀ (atts : List GEdge) (k : ℕ) (st : RState),
      ∀ e ∈ (processAttacks gs gt p k atts st).graph.edges,
        e ∈ st.graph.edges ∨
          ∃ a ∈ atts, e = ⟨a.src, gs, a.etype, a.prob⟩ := by
  intro atts
  induction atts with
  | nil =>
    intro k st e he
    exact Or.inl he
  | cons a rest ih =>
    intro k st e he
    rw [processAttacks] at he
    rcases ih (k + 1) _ e he with hmem | ⟨b, hb, hbe⟩
    · dsimp only at hmem
      by_cases hsuc : decide (st.draws.head < p * (1/2) ^ k) = true
      · rw [if_pos hsuc] at hmem
        rcases mem_addEdge.mp hmem with ⟨h1, _⟩ | h2
        · exact Or.inl (mem_removeEdge.mp h1).1
        · exact Or.inr ⟨a, List.mem_cons_self a rest, h2⟩
      · rw [if_neg hsuc] at hmem
        exact Or.inl hmem
    · exact Or.inr ⟨b, List.mem_cons_of_mem a hb, hbe⟩

/-- The membership and `srcNodup` bookkeeping for one successful
interception. -/
theorem addEdge_removeEdge_srcNodup (g : EGraph) (a : GEdge) (gs : TokenId)
    (hnd : srcNodup g) (hag : a ∈ g.edges) :
    srcNodup (addEdge (removeEdge g a.src a.tar)
      ⟨a.src, gs, a.etype, a.prob⟩) := by
  unfold srcNodup addEdge removeEdge
  dsimp only
  rw [List.map_append, List.nodup_append]
  refine ⟨?_, by simp, ?_⟩
  · exact (((List.filter_sublist _).trans
      (List.filter_sublist _)).map GEdge.src).nodup hnd
  · intro x hx
    simp only [List.map_cons, List.map_nil, List.mem_singleton]
    intro hxa
    subst hxa
    rw [List.mem_map] at hx
    obtain ⟨e', he', hesrc⟩ := hx
    rw [List.mem_filter] at he'
    obtain ⟨he'2, hcond2⟩ := he'
    rw [List.mem_filter] at he'2
    obtain ⟨he'3, hcond3⟩ := he'2
    have hea : e' = a := srcNodup_inj hnd he'3 hag hesrc
    subst hea
    simp at hcond3

/-- An edge with a different source survives one successful
interception. -/
theorem addEdge_removeEdge_keep (g : EGraph) (a : GEdge) (gs : TokenId)
    (b : GEdge) (hb : b ∈ g.edges) (hba : b.src ≠ a.src) :
    b ∈ (addEdge (removeEdge g a.src a.tar)
      ⟨a.src, gs, a.etype, a.prob⟩).edges := by
  rw [mem_addEdge]
  exact Or.inl ⟨mem_removeEdge.mpr ⟨hb, fun hc => hba hc.1⟩,
    fun hc => hba hc.1⟩

/-- `processAttacks` preserves distinctness of edge sources. -/
theorem processAttacks_srcNodup (gs gt : TokenId) (p : ℚ) :
    ∀ (atts : List GEdge) (k : ℕ) (st : RState),
      srcNodup st.graph → (∀ a ∈ atts, a ∈ st.graph.edges) →
      (atts.map GEdge.src).Nodup →
      srcNodup (processAttacks gs gt p k atts st).graph := by
  intro atts
  induction atts with
  | nil =>
    intro k st h _ _
    exact h
  | cons a rest ih =>
    intro k st hnd hmem hand
    rw [processAttacks]
    have hag : a ∈ st.graph.edges := hmem a (List.mem_cons_self a rest)
    rw [List.map_cons, List.nodup_cons] at hand
    by_cases hsuc : decide (st.draws.head < p * (1/2) ^ k) = true
    · dsimp only
      rw [if_pos hsuc]
      apply ih
      · exact addEdge_removeEdge_srcNodup st.graph a gs hnd hag
      · intro b hb
        refine addEdge_removeEdge_keep st.graph a gs b
          (hmem b (List.mem_cons_of_mem a hb)) ?_
        intro hc
        exact hand.1 (hc ▸ List.mem_map_of_mem GEdge.src hb)
      · exact hand.2
    · dsimp only
      rw [if_neg hsuc]
      apply ih
      · exact hnd
      · exact fun b hb => hmem b (List.mem_cons_of_mem a hb)
      · exact hand.2

/-- The outcomes appended by `processAttacks`: one guard outcome per
attack, the `i`-th (0-indexed within this call) carrying probability
`p * (1/2)^(k+i)` and succeeding iff the `i`-th draw is below it. -/
theorem processAttacks_outcomes (gs gt : TokenId) (p : ℚ) :
    ∀ (atts : List GEdge) (k : ℕ) (st : RState),
      (processAttacks gs gt p k atts st).outcomes =
        st.outcomes ++ atts.enum.map (fun ia =>
          (⟨EngKind.guard, some ia.2.src, gt, some gs,
            p * (1/2) ^ (k + ia.1),
            decide (st.draws ia.1 < p * (1/2) ^ (k + ia.1))⟩ : Outcome)) := by
  intro atts
  induction atts with
  | nil =>
    intro k st
    simp [processAttacks]
  | cons a rest ih =>
    intro k st
    rw [processAttacks, ih]
    dsimp only
    rw [List.enum_cons', List.map_cons, List.map_map]
    rw [List.append_assoc]
    congr 1
    rw [List.singleton_append]
    congr 1
    apply List.map_congr_left
    intro ia hia
    simp only [Function.comp_apply, Prod.map_apply, id_eq]
    have hk : k + 1 + ia.1 = k + (ia.1 + 1) := by omega
    rw [hk]
    rfl

/-- Per-attack graph effect of `processAttacks`: if the `i`-th draw is
below `p * (1/2)^(k+i)`, the `i`-th attack edge is rerouted — the final
graph contains the edge from that attacker to the guardian with the
attack's kind and probability, and contains no edge from that attacker
to the guarded piece. -/
theorem processAttacks_effect (gs gt : TokenId) (p : ℚ) :
    ∀ (atts : List GEdge) (k : ℕ) (st : RState),
      srcNodup st.graph → (∀ a ∈ atts, a ∈ st.graph.edges) →
      (atts.map GEdge.src).Nodup → (∀ a ∈ atts, a.tar = gt) →
      gs ≠ gt →
      ∀ i (hi : i < atts.length),
        decide (st.draws i < p * (1/2) ^ (k + i)) = true →
          ((⟨(atts.get ⟨i, hi⟩).src, gs, (atts.get ⟨i, hi⟩).etype,
            (atts.get ⟨i, hi⟩).prob⟩ : GEdge) ∈
              (processAttacks gs gt p k atts st).graph.edges) ∧
          ∀ e ∈ (processAttacks gs gt p k atts st).graph.edges,
            ¬(e.src = (atts.get ⟨i, hi⟩).src ∧ e.tar = gt) := by
  intro atts
  induction atts with
  | nil =>
    intro k st _ _ _ _ _ i hi
    exact absurd hi (by simp)
  | cons a rest ih =>
    intro k st hnd hmem hand htar hgsgt i hi hdraw
    have hag : a ∈ st.graph.edges := hmem a (List.mem_cons_self a rest)
    rw [List.map_cons, List.nodup_cons] at hand
    match i with
    | 0 =>
      -- the head attack is intercepted
      have hsuc : decide (st.draws.head < p * (1/2) ^ k) = true := hdraw
      rw [processAttacks]
      rw [if_pos hsuc]
      have hnewmem : (⟨a.src, gs, a.etype, a.prob⟩ : GEdge) ∈
          (addEdge (removeEdge st.graph a.src a.tar)
            ⟨a.src, gs, a.etype, a.prob⟩).edges :=
        mem_addEdge.mpr (Or.inr rfl)
      constructor
      · exact processAttacks_keep gs gt p rest (k + 1) _ _ hnewmem hand.1
      · intro e he hmatch
        rcases processAttacks_origin gs gt p rest (k + 1) _ e he with
          hmem' | ⟨b, hb, hbe⟩
        · rcases mem_addEdge.mp hmem' with ⟨h1, h2⟩ | h3
          · obtain ⟨h4, h5⟩ := mem_removeEdge.mp h1
            exact h5 ⟨hmatch.1, by
              rw [htar a (List.mem_cons_self a rest)]
              exact hmatch.2⟩
          · rw [h3] at hmatch
            exact hgsgt hmatch.2
        · rw [hbe] at hmatch
          have hbsrc : b.src = a.src := hmatch.1
          exact hand.1 (hbsrc ▸ List.mem_map_of_mem GEdge.src hb)
    | (j + 1) =>
      have hj : j < rest.length := by simpa using hi
      have hget : (a :: rest).get ⟨j + 1, hi⟩ = rest.get ⟨j, hj⟩ := rfl
      rw [processAttacks]
      rw [hget]
      by_cases hsuc : decide (st.draws.head < p * (1/2) ^ k) = true
      · rw [if_pos hsuc]
        have hdraw' : decide ((Stream'.tail st.draws) j <
            p * (1/2) ^ (k + 1 + j)) = true := by
          have hk : k + 1 + j = k + (j + 1) := by omega
          rw [hk]
          exact hdraw
        refine ih (k + 1) _ ?_ ?_ hand.2
          (fun b hb => htar b (List.mem_cons_of_mem a hb)) hgsgt j hj hdraw'
        · exact addEdge_removeEdge_srcNodup st.graph a gs hnd hag
        · intro b hb
          refine addEdge_removeEdge_keep st.graph a gs b
            (hmem b (List.mem_cons_of_mem a hb)) ?_
          intro hc
          exact hand.1 (hc ▸ List.mem_map_of_mem GEdge.src hb)
      · rw [if_neg hsuc]
        have hdraw' : decide ((Stream'.tail st.draws) j <
            p * (1/2) ^ (k + 1 + j)) = true := by
          have hk : k + 1 + j = k + (j + 1) := by omega
          rw [hk]
          exact hdraw
        refine ih (k + 1)
          { graph := st.graph,
            outcomes := st.outcomes ++
              [⟨EngKind.guard, some a.src, gt, some gs, p * (1/2) ^ k,
                decide (st.draws.head < p * (1/2) ^ k)⟩],
            picks := st.picks,
            draws := st.draws.tail } hnd
          (fun b hb => hmem b (List.mem_cons_of_mem a hb))
          hand.2 (fun b hb => htar b (List.mem_cons_of_mem a hb)) hgsgt
          j hj hdraw'

/-- Claim C3.  For a guard edge `g → s` of an engagement graph with
pairwise-distinct edge sources (as built from an engagement dict): the
guard edge is removed first and never reappears; if no attack edge into
`s` remains, exactly one trivial guard outcome with `success = false` is
emitted; otherwise, over the randomly-ordered incident attacks (a
permutation of them), the `k`-th (0-indexed) attack is intercepted iff
its draw is below `p * 0.5^k` (`p` the guard's probability), a
successful interception removes the edge `a → s` and adds `a → g` with
the same kind and probability, and exactly one guard outcome
`(attacker = a, target = s, guardian = g, prob = p * 0.5^k, success)` is
emitted per incident attack. -/
theorem guard_resolution_per_edge (st : RState) (ge : GEdge)
    (hnd : srcNodup st.graph) (hge : ge ∈ st.graph.edges)
    (hne : ge.src ≠ ge.tar) :
    (∀ e ∈ (resolveGuardEdge st ge).graph.edges,
      ¬(e.src = ge.src ∧ e.tar = ge.tar)) ∧
    (attackInEdges (removeEdge st.graph ge.src ge.tar) ge.tar = [] →
      (resolveGuardEdge st ge).outcomes = st.outcomes ++
        [⟨EngKind.guard, none, ge.tar, some ge.src, ge.prob, false⟩]) ∧
    (attackInEdges (removeEdge st.graph ge.src ge.tar) ge.tar ≠ [] →
      List.Perm (shuffleBy (attackInEdges
          (removeEdge st.graph ge.src ge.tar) ge.tar) st.picks).1
        (attackInEdges (removeEdge st.graph ge.src ge.tar) ge.tar) ∧
      (resolveGuardEdge st ge).outcomes = st.outcomes ++
        ((shuffleBy (attackInEdges
            (removeEdge st.graph ge.src ge.tar) ge.tar) st.picks).1).enum.map
          (fun ia =>
            (⟨EngKind.guard, some ia.2.src, ge.tar, some ge.src,
              ge.prob * (1/2) ^ ia.1,
              decide (st.draws ia.1 < ge.prob * (1/2) ^ ia.1)⟩ : Outcome)) ∧
      ∀ i (hi : i < (shuffleBy (attackInEdges
          (removeEdge st.graph ge.src ge.tar) ge.tar) st.picks).1.length),
        decide (st.draws i < ge.prob * (1/2) ^ i) = true →
          (((⟨((shuffleBy (attackInEdges (removeEdge st.graph ge.src ge.tar)
                ge.tar) st.picks).1.get ⟨i, hi⟩).src, ge.src,
              ((shuffleBy (attackInEdges (removeEdge st.graph ge.src ge.tar)
                ge.tar) st.picks).1.get ⟨i, hi⟩).etype,
              ((shuffleBy (attackInEdges (removeEdge st.graph ge.src ge.tar)
                ge.tar) st.picks).1.get ⟨i, hi⟩).prob⟩ : GEdge) ∈
            (resolveGuardEdge st ge).graph.edges) ∧
          ∀ e ∈ (resolveGuardEdge st ge).graph.edges,
            ¬(e.src = ((shuffleBy (attackInEdges
                (removeEdge st.graph ge.src ge.tar) ge.tar)
                st.picks).1.get ⟨i, hi⟩).src ∧ e.tar = ge.tar))) := by
  have hnd1 : srcNodup (removeEdge st.graph ge.src ge.tar) :=
    srcNodup_removeEdge hnd
  have hattsub : ∀ a ∈ attackInEdges (removeEdge st.graph ge.src ge.tar)
      ge.tar, a ∈ (removeEdge st.graph ge.src ge.tar).edges :=
    fun a ha => (mem_attackInEdges.mp ha).1
  have hattnd : ((attackInEdges (removeEdge st.graph ge.src ge.tar)
      ge.tar).map GEdge.src).Nodup :=
    ((List.filter_sublist _).map GEdge.src).nodup hnd1
  have hatttar : ∀ a ∈ attackInEdges (removeEdge st.graph ge.src ge.tar)
      ge.tar, a.tar = ge.tar :=
    fun a ha => (mem_attackInEdges.mp ha).2.1
  have hshperm := shuffleBy_perm (attackInEdges
    (removeEdge st.graph ge.src ge.tar) ge.tar) st.picks
  have hshsub : ∀ a ∈ (shuffleBy (attackInEdges
      (removeEdge st.graph ge.src ge.tar) ge.tar) st.picks).1,
      a ∈ (removeEdge st.graph ge.src ge.tar).edges :=
    fun a ha => hattsub a (hshperm.mem_iff.mp ha)
  have hshnd : (((shuffleBy (attackInEdges
      (removeEdge st.graph ge.src ge.tar) ge.tar) st.picks).1).map
      GEdge.src).Nodup :=
    (hshperm.map GEdge.src).nodup_iff.mpr hattnd
  have hshtar : ∀ a ∈ (shuffleBy (attackInEdges
      (removeEdge st.graph ge.src ge.tar) ge.tar) st.picks).1,
      a.tar = ge.tar :=
    fun a ha => hatttar a (hshperm.mem_iff.mp ha)
  refine ⟨?_, ?_, ?_⟩
  · -- the guard edge is gone from the final graph
    intro e he hmatch
    unfold resolveGuardEdge at he
    by_cases hemp : (attackInEdges (removeEdge st.graph ge.src ge.tar)
        ge.tar).isEmpty
    · rw [if_pos hemp] at he
      exact (mem_removeEdge.mp he).2 hmatch
    · rw [if_neg hemp] at he
      rcases processAttacks_origin ge.src ge.tar ge.prob _ 0 _ e he with
        hmem' | ⟨b, hb, hbe⟩
      · exact (mem_removeEdge.mp hmem').2 hmatch
      · rw [hbe] at hmatch
        exact hne (hmatch.2.symm ▸ rfl)
  · -- trivial guard outcome
    intro hempty
    unfold resolveGuardEdge
    rw [if_pos (by rw [hempty]; rfl)]
  · -- outcomes and reroutes over the shuffled attacks
    intro hnonempty
    have hemp : ¬ (attackInEdges (removeEdge st.graph ge.src ge.tar)
        ge.tar).isEmpty := by
      rw [List.isEmpty_iff]
      exact hnonempty
    refine ⟨hshperm, ?_, ?_⟩
    · unfold resolveGuardEdge
      rw [if_neg hemp]
      rw [processAttacks_outcomes]
      congr 1
      apply List.map_congr_left
      intro ia hia
      rw [Nat.zero_add]
    · intro i hi hdraw
      have hdraw' : decide (st.draws i < ge.prob * (1/2) ^ (0 + i)) = true := by
        rw [Nat.zero_add]
        exact hdraw
      have heff := processAttacks_effect ge.src ge.tar ge.prob _ 0
        { graph := removeEdge st.graph ge.src ge.tar,
          outcomes := st.outcomes,
          picks := (shuffleBy (attackInEdges
            (removeEdge st.graph ge.src ge.tar) ge.tar) st.picks).2,
          draws := st.draws }
        hnd1 hshsub hshnd hshtar hne i hi hdraw'
      have hres : resolveGuardEdge st ge = processAttacks ge.src ge.tar
          ge.prob 0 (shuffleBy (attackInEdges
            (removeEdge st.graph ge.src ge.tar) ge.tar) st.picks).1
          { graph := removeEdge st.graph ge.src ge.tar,
            outcomes := st.outcomes,
            picks := (shuffleBy (attackInEdges
              (removeEdge st.graph ge.src ge.tar) ge.tar) st.picks).2,
            draws := st.draws } := by
        unfold resolveGuardEdge
        rw [if_neg hemp]
      rw [hres]
      exact heff

/-- Witness for `guard_resolution_per_edge`: a lone guard edge with no
incident attack yields exactly the trivial failed guard outcome. -/
theorem guard_resolution_per_edge_witness :
    (resolveGuardEdge
      ⟨⟨[⟨Player.beta, Role.bludger, 1⟩, ⟨Player.beta, Role.seeker, 0⟩],
        [⟨⟨Player.beta, Role.bludger, 1⟩, ⟨Player.beta, Role.seeker, 0⟩,
          EngKind.guard, 1⟩]⟩, [], fun _ => 0, fun _ => 0⟩
      ⟨⟨Player.beta, Role.bludger, 1⟩, ⟨Player.beta, Role.seeker, 0⟩,
        EngKind.guard, 1⟩).outcomes =
      [⟨EngKind.guard, none, ⟨Player.beta, Role.seeker, 0⟩,
        some ⟨Player.beta, Role.bludger, 1⟩, 1, false⟩] := by
  have h := guard_resolution_per_edge
    ⟨⟨[⟨Player.beta, Role.bludger, 1⟩, ⟨Player.beta, Role.seeker, 0⟩],
      [⟨⟨Player.beta, Role.bludger, 1⟩, ⟨Player.beta, Role.seeker, 0⟩,
        EngKind.guard, 1⟩]⟩, [], fun _ => 0, fun _ => 0⟩
    ⟨⟨Player.beta, Role.bludger, 1⟩, ⟨Player.beta, Role.seeker, 0⟩,
      EngKind.guard, 1⟩
    (by unfold srcNodup; decide) (by decide) (by decide)
  have h2 := h.2.1 (by decide)
  rw [h2]
  rfl

/-! ## koth.KOTHGame DRIFT step (claim C1)

The game state carries the fields the drift branch of
`apply_verbose_actions` reads and writes (the derived adjacency graph and
legal-action table, recomputed by `update_turn_phase`, are not part of
the claim).  `game_state[player][TOKEN_STATES][0]` aliases the catalog
entry `"player:HVA:0"` (the seeker), which is how
`is_terminal_game_state` reads seeker fuel. -/

inductive TurnPhase
  | movement
  | engagement
  | drift
deriving DecidableEq, Repr

structure GameState where
  tokens : Catalog
  goal1 : ℕ
  goal2 : ℕ
  score1 : ℚ
  score2 : ℚ
  fuelScore1 : ℚ
  fuelScore2 : ℚ
  turnCount : ℕ
  turnPhase : TurnPhase
  gameDone : Bool
deriving DecidableEq, Repr

/-- The game parameters (`KOTHGameInputArgs`) the drift branch uses. -/
structure DriftParams where
  nRings : ℕ
  fuelUsageDriftAlpha : ℚ
  fuelUsageDriftBeta : ℚ
  minFuel : ℚ
  inGoalPointsAlpha : ℚ
  inGoalPointsBeta : ℚ
  adjGoalPointsAlpha : ℚ
  adjGoalPointsBeta : ℚ
  fuelPointsFactorAlpha : ℚ
  fuelPointsFactorBeta : ℚ
  fuelPointsFactorBludgerAlpha : ℚ
  fuelPointsFactorBludgerBeta : ℚ
  winScoreAlpha : ℚ
  winScoreBeta : ℚ
  maxTurns : ℕ
deriving DecidableEq, Repr

/-- `KOTHGame.get_fuel_points`: fuel of each of the player's tokens with
positive fuel, weighted by the seeker/bludger factor, floored to an
integer (`int(np.floor(...))`). -/
def getFuelPoints (P : DriftParams) (cat : Catalog) (p : Player) : ℤ :=
  Int.floor (cat.foldl (fun (acc : ℚ) t =>
    if t.1.player = p then
      match t.2.role with
      | Role.seeker =>
        if 0 < t.2.fuel then
          acc + t.2.fuel * (match p with
            | Player.alpha => P.fuelPointsFactorAlpha
            | Player.beta => P.fuelPointsFactorBeta)
        else acc
      | Role.bludger =>
        if 0 < t.2.fuel then
          acc + t.2.fuel * (match p with
            | Player.alpha => P.fuelPointsFactorBludgerAlpha
            | Player.beta => P.fuelPointsFactorBludgerBeta)
        else acc
    else acc) (0 : ℚ))

/-- `KOTHGame.get_points`: goal points of each player's seekers (in the
hill sector, or adjacent to it). -/
def getPoints (P : DriftParams) (st : GameState) : ℚ × ℚ :=
  let alphaAdj := getAllAdjacentSectors P.nRings st.goal1
  let betaAdj := getAllAdjacentSectors P.nRings st.goal2
  let alphaSeekerSecs := (st.tokens.filter (fun t =>
    decide (t.1.player = Player.alpha) &&
    decide (t.1.role = Role.seeker))).map (fun t => t.2.position)
  let betaSeekerSecs := (st.tokens.filter (fun t =>
    decide (t.1.player = Player.beta) &&
    decide (t.1.role = Role.seeker))).map (fun t => t.2.position)
  (alphaSeekerSecs.foldl (fun (acc : ℚ) s =>
      if s = st.goal1 then acc + P.inGoalPointsAlpha
      else if s ∈ alphaAdj then acc + P.adjGoalPointsAlpha
      else acc) (0 : ℚ),
   betaSeekerSecs.foldl (fun (acc : ℚ) s =>
      if s = st.goal2 then acc + P.inGoalPointsBeta
      else if s ∈ betaAdj then acc + P.adjGoalPointsBeta
      else acc) (0 : ℚ))

/-- Fuel of `game_state[player][TOKEN_STATES][0]`, the player's seeker —
the catalog entry `"player:HVA:0"`. -/
def seekerFuel (cat : Catalog) (p : Player) : ℚ :=
  ((lookupTok cat ⟨p, Role.seeker, 0⟩).getD ⟨0, 0, Role.seeker, 0⟩).fuel

/-- `KOTHGame.is_terminal_game_state`. -/
def isTerminalGameState (P : DriftParams) (st : GameState) : Bool :=
  decide (seekerFuel st.tokens Player.alpha ≤ P.minFuel ∨
          seekerFuel st.tokens Player.beta ≤ P.minFuel ∨
          P.winScoreAlpha ≤ st.score1 ∨
          P.winScoreBeta ≤ st.score2 ∨
          P.maxTurns ≤ st.turnCount)

/-- The DRIFT branch of `KOTHGame.apply_verbose_actions` (actions are
`None`): update scores and fuel scores, test the terminal conditions
(`terminate_game` sets `game_done` and returns the score-difference
rewards), otherwise deduct station-keeping fuel (floored at `min_fuel`),
move every token and both hills one sector prograde, increment the turn
counter and enter MOVEMENT with zero rewards. -/
def driftStep (P : DriftParams) (st : GameState) : GameState × (ℚ × ℚ) :=
  let alphaFuelPoints : ℚ := getFuelPoints P st.tokens Player.alpha
  let betaFuelPoints : ℚ := getFuelPoints P st.tokens Player.beta
  let points := getPoints P st
  let alphaScoreJustGoal := st.score1 - st.fuelScore1 + points.1
  let betaScoreJustGoal := st.score2 - st.fuelScore2 + points.2
  let st1 := { st with
    score1 := alphaScoreJustGoal + alphaFuelPoints,
    score2 := betaScoreJustGoal + betaFuelPoints,
    fuelScore1 := alphaFuelPoints,
    fuelScore2 := betaFuelPoints }
  if isTerminalGameState P st1 then
    ({ st1 with gameDone := true },
     (st1.score1 - st1.score2, -(st1.score1 - st1.score2)))
  else
    ({ st1 with
        tokens := st1.tokens.map (fun t =>
          (t.1, { t.2 with
            fuel := max (t.2.fuel -
              (match t.1.player with
               | Player.alpha => P.fuelUsageDriftAlpha
               | Player.beta => P.fuelUsageDriftBeta)) P.minFuel,
            position := getProgradeSector t.2.position })),
        goal1 := getProgradeSector st1.goal1,
        goal2 := getProgradeSector st1.goal2,
        turnCount := st1.turnCount + 1,
        turnPhase := TurnPhase.movement },
     (0, 0))

/-- Claim C1 as stated is false on the code: the terminal check happens
immediately after the score update and *before* any fuel deduction,
movement or turn increment.  In this state (score pushed past the win
threshold) the game ends with the seeker's fuel and position and the
hill and turn counter all unchanged, where the claim prescribes a fuel
deduction, prograde moves and an incremented counter first. -/
theorem drift_step_order_counterexample :
    (driftStep
      ⟨4, 1, 1, 0, 10, 10, 3, 3, 1, 1, 1/10, 1/10, 500, 500, 50⟩
      ⟨[(⟨Player.alpha, Role.seeker, 0⟩, ⟨10, 0, Role.seeker, 16⟩),
        (⟨Player.beta, Role.seeker, 0⟩, ⟨10, 0, Role.seeker, 24⟩)],
       16, 24, 600, 0, 0, 0, 0, TurnPhase.drift, false⟩).1.gameDone =
      true ∧
    (driftStep
      ⟨4, 1, 1, 0, 10, 10, 3, 3, 1, 1, 1/10, 1/10, 500, 500, 50⟩
      ⟨[(⟨Player.alpha, Role.seeker, 0⟩, ⟨10, 0, Role.seeker, 16⟩),
        (⟨Player.beta, Role.seeker, 0⟩, ⟨10, 0, Role.seeker, 24⟩)],
       16, 24, 600, 0, 0, 0, 0, TurnPhase.drift, false⟩).1.turnCount ≠
      0 + 1 ∧
    lookupTok (driftStep
      ⟨4, 1, 1, 0, 10, 10, 3, 3, 1, 1, 1/10, 1/10, 500, 500, 50⟩
      ⟨[(⟨Player.alpha, Role.seeker, 0⟩, ⟨10, 0, Role.seeker, 16⟩),
        (⟨Player.beta, Role.seeker, 0⟩, ⟨10, 0, Role.seeker, 24⟩)],
       16, 24, 600, 0, 0, 0, 0, TurnPhase.drift, false⟩).1.tokens
      ⟨Player.alpha, Role.seeker, 0⟩ = some ⟨10, 0, Role.seeker, 16⟩ ∧
    (driftStep
      ⟨4, 1, 1, 0, 10, 10, 3, 3, 1, 1, 1/10, 1/10, 500, 500, 50⟩
      ⟨[(⟨Player.alpha, Role.seeker, 0⟩, ⟨10, 0, Role.seeker, 16⟩),
        (⟨Player.beta, Role.seeker, 0⟩, ⟨10, 0, Role.seeker, 24⟩)],
       16, 24, 600, 0, 0, 0, 0, TurnPhase.drift, false⟩).1.goal1 = 16 := by
  simp [driftStep, isTerminalGameState, getPoints, getFuelPoints, seekerFuel,
    lookupTok, List.find?, List.foldl, List.filter, List.map]
  norm_num

/-- Claim C1, amended.  In the DRIFT step, the scores and fuel scores are
updated first; the terminal conditions (either Seeker's fuel at or below
`min_fuel`, either *updated* score at or above that player's win
threshold, or the *pre-increment* turn count at or above `max_turns`)
are then checked immediately — before any fuel deduction or movement.
If one holds, `game_done` is set, rewards
`(score_alpha − score_beta, score_beta − score_alpha)` are returned and
the tokens, hills and turn counter are left unchanged; otherwise
`fuel_usage[drift]` is deducted from every token (floored at
`min_fuel`), every token and both hills move one sector prograde, the
turn counter is incremented and the phase becomes MOVEMENT with zero
rewards. -/
theorem drift_step_spec (P : DriftParams) (st : GameState) :
    ((driftStep P st).1.score1 = st.score1 - st.fuelScore1 +
        (getPoints P st).1 + (getFuelPoints P st.tokens Player.alpha : ℚ) ∧
     (driftStep P st).1.score2 = st.score2 - st.fuelScore2 +
        (getPoints P st).2 + (getFuelPoints P st.tokens Player.beta : ℚ) ∧
     (driftStep P st).1.fuelScore1 =
        (getFuelPoints P st.tokens Player.alpha : ℚ) ∧
     (driftStep P st).1.fuelScore2 =
        (getFuelPoints P st.tokens Player.beta : ℚ)) ∧
    ((seekerFuel st.tokens Player.alpha ≤ P.minFuel ∨
      seekerFuel st.tokens Player.beta ≤ P.minFuel ∨
      P.winScoreAlpha ≤ st.score1 - st.fuelScore1 +
        (getPoints P st).1 + (getFuelPoints P st.tokens Player.alpha : ℚ) ∨
      P.winScoreBeta ≤ st.score2 - st.fuelScore2 +
        (getPoints P st).2 + (getFuelPoints P st.tokens Player.beta : ℚ) ∨
      P.maxTurns ≤ st.turnCount) →
      (driftStep P st).1.gameDone = true ∧
      (driftStep P st).2 =
        ((driftStep P st).1.score1 - (driftStep P st).1.score2,
         -((driftStep P st).1.score1 - (driftStep P st).1.score2)) ∧
      (driftStep P st).1.tokens = st.tokens ∧
      (driftStep P st).1.goal1 = st.goal1 ∧
      (driftStep P st).1.goal2 = st.goal2 ∧
      (driftStep P st).1.turnCount = st.turnCount ∧
      (driftStep P st).1.turnPhase = st.turnPhase) ∧
    (¬ (seekerFuel st.tokens Player.alpha ≤ P.minFuel ∨
        seekerFuel st.tokens Player.beta ≤ P.minFuel ∨
        P.winScoreAlpha ≤ st.score1 - st.fuelScore1 +
          (getPoints P st).1 + (getFuelPoints P st.tokens Player.alpha : ℚ) ∨
        P.winScoreBeta ≤ st.score2 - st.fuelScore2 +
          (getPoints P st).2 + (getFuelPoints P st.tokens Player.beta : ℚ) ∨
        P.maxTurns ≤ st.turnCount) →
      (driftStep P st).2 = (0, 0) ∧
      (driftStep P st).1.gameDone = st.gameDone ∧
      (driftStep P st).1.turnCount = st.turnCount + 1 ∧
      (driftStep P st).1.turnPhase = TurnPhase.movement ∧
      (driftStep P st).1.goal1 = getProgradeSector st.goal1 ∧
      (driftStep P st).1.goal2 = getProgradeSector st.goal2 ∧
      ∀ p ∈ st.tokens,
        (p.1, { p.2 with
          fuel := max (p.2.fuel -
            (match p.1.player with
             | Player.alpha => P.fuelUsageDriftAlpha
             | Player.beta => P.fuelUsageDriftBeta)) P.minFuel,
          position := getProgradeSector p.2.position }) ∈
          (driftStep P st).1.tokens) := by
  have hterm_iff : ∀ st1 : GameState,
      isTerminalGameState P st1 = true ↔
        (seekerFuel st1.tokens Player.alpha ≤ P.minFuel ∨
         seekerFuel st1.tokens Player.beta ≤ P.minFuel ∨
         P.winScoreAlpha ≤ st1.score1 ∨
         P.winScoreBeta ≤ st1.score2 ∨
         P.maxTurns ≤ st1.turnCount) := by
    intro st1
    unfold isTerminalGameState
    rw [decide_eq_true_eq]
  by_cases hterm : (seekerFuel st.tokens Player.alpha ≤ P.minFuel ∨
      seekerFuel st.tokens Player.beta ≤ P.minFuel ∨
      P.winScoreAlpha ≤ st.score1 - st.fuelScore1 +
        (getPoints P st).1 + (getFuelPoints P st.tokens Player.alpha : ℚ) ∨
      P.winScoreBeta ≤ st.score2 - st.fuelScore2 +
        (getPoints P st).2 + (getFuelPoints P st.tokens Player.beta : ℚ) ∨
      P.maxTurns ≤ st.turnCount)
  · have hcond : isTerminalGameState P { st with
        score1 := st.score1 - st.fuelScore1 + (getPoints P st).1 +
          (getFuelPoints P st.tokens Player.alpha : ℚ),
        score2 := st.score2 - st.fuelScore2 + (getPoints P st).2 +
          (getFuelPoints P st.tokens Player.beta : ℚ),
        fuelScore1 := (getFuelPoints P st.tokens Player.alpha : ℚ),
        fuelScore2 := (getFuelPoints P st.tokens Player.beta : ℚ) } = true := by
      rw [hterm_iff]
      exact hterm
    have hstep : driftStep P st = ({ st with
        score1 := st.score1 - st.fuelScore1 + (getPoints P st).1 +
          (getFuelPoints P st.tokens Player.alpha : ℚ),
        score2 := st.score2 - st.fuelScore2 + (getPoints P st).2 +
          (getFuelPoints P st.tokens Player.beta : ℚ),
        fuelScore1 := (getFuelPoints P st.tokens Player.alpha : ℚ),
        fuelScore2 := (getFuelPoints P st.tokens Player.beta : ℚ),
        gameDone := true },
      ((st.score1 - st.fuelScore1 + (getPoints P st).1 +
          (getFuelPoints P st.tokens Player.alpha : ℚ)) -
        (st.score2 - st.fuelScore2 + (getPoints P st).2 +
          (getFuelPoints P st.tokens Player.beta : ℚ)),
       -((st.score1 - st.fuelScore1 + (getPoints P st).1 +
          (getFuelPoints P st.tokens Player.alpha : ℚ)) -
        (st.score2 - st.fuelScore2 + (getPoints P st).2 +
          (getFuelPoints P st.tokens Player.beta : ℚ))))) := by
      unfold driftStep
      rw [if_pos hcond]
    rw [hstep]
    refine ⟨⟨rfl, rfl, rfl, rfl⟩, ?_, ?_⟩
    · intro _
      exact ⟨rfl, rfl, rfl, rfl, rfl, rfl, rfl⟩
    · intro hc
      exact absurd hterm hc
  · have hcond : isTerminalGameState P { st with
        score1 := st.score1 - st.fuelScore1 + (getPoints P st).1 +
          (getFuelPoints P st.tokens Player.alpha : ℚ),
        score2 := st.score2 - st.fuelScore2 + (getPoints P st).2 +
          (getFuelPoints P st.tokens Player.beta : ℚ),
        fuelScore1 := (getFuelPoints P st.tokens Player.alpha : ℚ),
        fuelScore2 := (getFuelPoints P st.tokens Player.beta : ℚ) } = false := by
      rw [Bool.eq_false_iff]
      intro hc
      rw [hterm_iff] at hc
      exact hterm hc
    have hstep : driftStep P st = ({ st with
        tokens := st.tokens.map (fun t =>
          (t.1, { t.2 with
            fuel := max (t.2.fuel -
              (match t.1.player with
               | Player.alpha => P.fuelUsageDriftAlpha
               | Player.beta => P.fuelUsageDriftBeta)) P.minFuel,
            position := getProgradeSector t.2.position })),
        score1 := st.score1 - st.fuelScore1 + (getPoints P st).1 +
          (getFuelPoints P st.tokens Player.alpha : ℚ),
        score2 := st.score2 - st.fuelScore2 + (getPoints P st).2 +
          (getFuelPoints P st.tokens Player.beta : ℚ),
        fuelScore1 := (getFuelPoints P st.tokens Player.alpha : ℚ),
        fuelScore2 := (getFuelPoints P st.tokens Player.beta : ℚ),
        goal1 := getProgradeSector st.goal1,
        goal2 := getProgradeSector st.goal2,
        turnCount := st.turnCount + 1,
        turnPhase := TurnPhase.movement }, (0, 0)) := by
      unfold driftStep
      rw [if_neg (by rw [hcond]; exact Bool.false_ne_true)]
    rw [hstep]
    refine ⟨⟨rfl, rfl, rfl, rfl⟩, ?_, ?_⟩
    · intro hc
      exact absurd hc hterm
    · intro _
      refine ⟨rfl, rfl, rfl, rfl, rfl, rfl, ?_⟩
      intro p hp
      exact List.mem_map_of_mem _ hp

/-- Witness for `drift_step_spec`: the terminal branch at the
counterexample state, and the non-terminal branch at the same state with
a lower score. -/
theorem drift_step_spec_witness :
    (driftStep
      ⟨4, 1, 1, 0, 10, 10, 3, 3, 1, 1, 1/10, 1/10, 500, 500, 50⟩
      ⟨[(⟨Player.alpha, Role.seeker, 0⟩, ⟨10, 0, Role.seeker, 16⟩),
        (⟨Player.beta, Role.seeker, 0⟩, ⟨10, 0, Role.seeker, 24⟩)],
       16, 24, 600, 0, 0, 0, 0, TurnPhase.drift, false⟩).1.gameDone =
      true ∧
    (driftStep
      ⟨4, 1, 1, 0, 10, 10, 3, 3, 1, 1, 1/10, 1/10, 500, 500, 50⟩
      ⟨[(⟨Player.alpha, Role.seeker, 0⟩, ⟨10, 0, Role.seeker, 16⟩),
        (⟨Player.beta, Role.seeker, 0⟩, ⟨10, 0, Role.seeker, 24⟩)],
       16, 24, 100, 0, 0, 0, 0, TurnPhase.drift, false⟩).1.turnCount =
      0 + 1 :=
  ⟨((drift_step_spec
      ⟨4, 1, 1, 0, 10, 10, 3, 3, 1, 1, 1/10, 1/10, 500, 500, 50⟩
      ⟨[(⟨Player.alpha, Role.seeker, 0⟩, ⟨10, 0, Role.seeker, 16⟩),
        (⟨Player.beta, Role.seeker, 0⟩, ⟨10, 0, Role.seeker, 24⟩)],
       16, 24, 600, 0, 0, 0, 0, TurnPhase.drift, false⟩).2.1
      (by simp [getPoints, getFuelPoints, seekerFuel, lookupTok, List.find?,
            List.foldl, List.filter, List.map]
          norm_num)).1,
   ((drift_step_spec
      ⟨4, 1, 1, 0, 10, 10, 3, 3, 1, 1, 1/10, 1/10, 500, 500, 50⟩
      ⟨[(⟨Player.alpha, Role.seeker, 0⟩, ⟨10, 0, Role.seeker, 16⟩),
        (⟨Player.beta, Role.seeker, 0⟩, ⟨10, 0, Role.seeker, 24⟩)],
       16, 24, 100, 0, 0, 0, 0, TurnPhase.drift, false⟩).2.2
      (by simp [getPoints, getFuelPoints, seekerFuel, lookupTok, List.find?,
            List.foldl, List.filter, List.map]
          norm_num)).2.2.1⟩

/-! ### Fuel constraints in the MOVEMENT step (`apply_fuel_constraints`) -/

/-- `U.MOVEMENT_TYPES` together with NOOP: a token's movement action. -/
inductive MoveKind
  | noop
  | prograde
  | retrograde
  | radialIn
  | radialOut
deriving DecidableEq, Repr

/-- The fuel-relevant game parameters of `KOTHGameInputArgs`: `min_fuel`
and the per-player `fuel_usage` lookup for movement actions. -/
structure FuelParams where
  minFuel : ℚ
  fuelUsageAlpha : MoveKind → ℚ
  fuelUsageBeta : MoveKind → ℚ

/-- `self.inargs.fuel_usage[player][movement_type]`. -/
def fuelUsageOf (FP : FuelParams) (p : Player) : MoveKind → ℚ :=
  match p with
  | Player.alpha => FP.fuelUsageAlpha
  | Player.beta => FP.fuelUsageBeta

/-- `self.token_catalog[token_name].satellite.fuel = fuel`. -/
def setTokFuel (cat : Catalog) (tn : TokenId) (f : ℚ) : Catalog :=
  cat.map (fun t => if t.1 = tn then (t.1, { t.2 with fuel := f }) else t)

/-- One iteration of the `apply_fuel_constraints` loop for a movement
action (`action_tuple.action_type in U.MOVEMENT_TYPES`): read the
token's fuel, subtract the movement's fuel usage; if the result is
below `min_fuel`, leave the stored fuel as is and coerce the action to
NoOp; otherwise store the decremented fuel and keep the action.  A
missing catalog entry is Python's `KeyError`. -/
def fuelConstraintStep (FP : FuelParams)
    (st : Catalog × List (TokenId × MoveKind)) (a : TokenId × MoveKind) :
    Option (Catalog × List (TokenId × MoveKind)) :=
  match lookupTok st.1 a.1 with
  | none => none
  | some ts =>
    let fuel := ts.fuel - fuelUsageOf FP a.1.player a.2
    if fuel < FP.minFuel then
      some (st.1, st.2 ++ [(a.1, MoveKind.noop)])
    else
      some (setTokFuel st.1 a.1 fuel, st.2 ++ [(a.1, a.2)])

/-- `KOTHGame.apply_fuel_constraints` restricted to movement actions:
the loop over `actions.items()`, threading the token catalog and
accumulating the fuel-constrained action dict. -/
def applyFuelConstraintsMove (FP : FuelParams) (cat : Catalog)
    (acts : List (TokenId × MoveKind)) :
    Option (Catalog × List (TokenId × MoveKind)) :=
  acts.foldlM (fuelConstraintStep FP) (cat, [])

lemma lookupTok_cons (hd : TokenId × TokenState) (tl : Catalog) (tn : TokenId) :
    lookupTok (hd :: tl) tn = if hd.1 = tn then some hd.2 else lookupTok tl tn := by
  by_cases h : hd.1 = tn <;> simp [lookupTok, List.find?, h]

lemma lookupTok_setTokFuel_same (cat : Catalog) (tn : TokenId) (f : ℚ)
    (ts : TokenState) (h : lookupTok cat tn = some ts) :
    lookupTok (setTokFuel cat tn f) tn = some { ts with fuel := f } := by
  induction cat with
  | nil => simp [lookupTok] at h
  | cons hd tl ih =>
    rw [lookupTok_cons] at h
    by_cases hhd : hd.1 = tn
    · rw [if_pos hhd] at h
      cases h
      show lookupTok ((if hd.1 = tn then (hd.1, { hd.2 with fuel := f }) else hd) ::
        setTokFuel tl tn f) tn = _
      rw [if_pos hhd, lookupTok_cons, if_pos hhd]
    · rw [if_neg hhd] at h
      show lookupTok ((if hd.1 = tn then (hd.1, { hd.2 with fuel := f }) else hd) ::
        setTokFuel tl tn f) tn = _
      rw [if_neg hhd, lookupTok_cons, if_neg hhd]
      exact ih h

lemma lookupTok_setTokFuel_other (cat : Catalog) (tn tn' : TokenId) (f : ℚ)
    (h : tn' ≠ tn) :
    lookupTok (setTokFuel cat tn f) tn' = lookupTok cat tn' := by
  induction cat with
  | nil => rfl
  | cons hd tl ih =>
    show lookupTok ((if hd.1 = tn then (hd.1, { hd.2 with fuel := f }) else hd) ::
      setTokFuel tl tn f) tn' = _
    by_cases hhd : hd.1 = tn
    · rw [if_pos hhd, lookupTok_cons, lookupTok_cons]
      have : ¬ hd.1 = tn' := by rw [hhd]; exact fun hc => h hc.symm
      rw [if_neg this, if_neg this]
      exact ih
    · rw [if_neg hhd, lookupTok_cons, lookupTok_cons]
      by_cases h2 : hd.1 = tn'
      · rw [if_pos h2, if_pos h2]
      · rw [if_neg h2, if_neg h2]
        exact ih

/-- The fuel-constrained action `apply_fuel_constraints` records for one
movement action, as a function of the original catalog. -/
def constrainMoveAction (FP : FuelParams) (cat : Catalog)
    (a : TokenId × MoveKind) : TokenId × MoveKind :=
  match lookupTok cat a.1 with
  | none => a
  | some ts =>
    if ts.fuel - fuelUsageOf FP a.1.player a.2 < FP.minFuel then
      (a.1, MoveKind.noop)
    else a

lemma fuelConstraint_fold_spec (FP : FuelParams) (cat : Catalog) :
    ∀ (acts : List (TokenId × MoveKind)) (cat0 : Catalog)
      (out0 : List (TokenId × MoveKind)),
      (acts.map Prod.fst).Nodup →
      (∀ a ∈ acts, lookupTok cat0 a.1 = lookupTok cat a.1) →
      (∀ a ∈ acts, ∃ ts, lookupTok cat a.1 = some ts) →
      ∃ catF, acts.foldlM (fuelConstraintStep FP) (cat0, out0) =
        some (catF, out0 ++ acts.map (constrainMoveAction FP cat)) ∧
        (∀ tn : TokenId, (∀ a ∈ acts, a.1 ≠ tn) →
          lookupTok catF tn = lookupTok cat0 tn) ∧
        (∀ a ∈ acts, ∀ ts, lookupTok cat a.1 = some ts →
          lookupTok catF a.1 =
            some (if ts.fuel - fuelUsageOf FP a.1.player a.2 < FP.minFuel then ts
                  else { ts with fuel := ts.fuel - fuelUsageOf FP a.1.player a.2 })) := by
  intro acts
  induction acts with
  | nil =>
    intro cat0 out0 _ _ _
    exact ⟨cat0, by simp [List.foldlM], fun tn _ => rfl, fun a ha => absurd ha (by simp)⟩
  | cons a rest ih =>
    intro cat0 out0 hnd hagree hpres
    obtain ⟨ts, hts⟩ := hpres a (List.mem_cons_self a rest)
    have hts0 : lookupTok cat0 a.1 = some ts := by
      rw [hagree a (List.mem_cons_self a rest)]
      exact hts
    have hnd_rest : (rest.map Prod.fst).Nodup := (List.nodup_cons.mp hnd).2
    have hfst : a.1 ∉ rest.map Prod.fst := (List.nodup_cons.mp hnd).1
    have hrest_ne : ∀ b ∈ rest, b.1 ≠ a.1 := by
      intro b hb hc
      exact hfst (hc ▸ List.mem_map_of_mem Prod.fst hb)
    have hstep_unfold : (a :: rest).foldlM (fuelConstraintStep FP) (cat0, out0) =
        (fuelConstraintStep FP (cat0, out0) a).bind
          (fun st1 => rest.foldlM (fuelConstraintStep FP) st1) := by
      simp [List.foldlM_cons, Option.bind_eq_bind]
    by_cases hcond : ts.fuel - fuelUsageOf FP a.1.player a.2 < FP.minFuel
    · have hstep : fuelConstraintStep FP (cat0, out0) a =
          some (cat0, out0 ++ [(a.1, MoveKind.noop)]) := by
        unfold fuelConstraintStep
        rw [hts0]
        simp only [if_pos hcond]
      obtain ⟨catF, hfold, hother, heach⟩ := ih cat0 (out0 ++ [(a.1, MoveKind.noop)])
        hnd_rest
        (fun b hb => hagree b (List.mem_cons_of_mem a hb))
        (fun b hb => hpres b (List.mem_cons_of_mem a hb))
      refine ⟨catF, ?_, ?_, ?_⟩
      · rw [hstep_unfold, hstep]
        rw [Option.some_bind, hfold]
        have hhead : constrainMoveAction FP cat a = (a.1, MoveKind.noop) := by
          unfold constrainMoveAction
          rw [hts]
          simp only [if_pos hcond]
        rw [List.map_cons, hhead, List.append_assoc]
        rfl
      · intro tn htn
        exact hother tn (fun b hb => htn b (List.mem_cons_of_mem a hb))
      · intro b hb ts' hts'
        rw [List.mem_cons] at hb
        rcases hb with hb | hb
        · subst hb
          rw [hts] at hts'
          cases hts'
          rw [if_pos hcond]
          rw [hother b.1 hrest_ne]
          exact hts0
        · exact heach b hb ts' hts'
    · have hstep : fuelConstraintStep FP (cat0, out0) a =
          some (setTokFuel cat0 a.1 (ts.fuel - fuelUsageOf FP a.1.player a.2),
            out0 ++ [(a.1, a.2)]) := by
        unfold fuelConstraintStep
        rw [hts0]
        simp only [if_neg hcond]
      obtain ⟨catF, hfold, hother, heach⟩ := ih
        (setTokFuel cat0 a.1 (ts.fuel - fuelUsageOf FP a.1.player a.2))
        (out0 ++ [(a.1, a.2)])
        hnd_rest
        (fun b hb => by
          rw [lookupTok_setTokFuel_other cat0 a.1 b.1 _ (hrest_ne b hb)]
          exact hagree b (List.mem_cons_of_mem a hb))
        (fun b hb => hpres b (List.mem_cons_of_mem a hb))
      refine ⟨catF, ?_, ?_, ?_⟩
      · rw [hstep_unfold, hstep]
        rw [Option.some_bind, hfold]
        have hhead : constrainMoveAction FP cat a = (a.1, a.2) := by
          unfold constrainMoveAction
          rw [hts]
          simp only [if_neg hcond]
        rw [List.map_cons, hhead, List.append_assoc]
        rfl
      · intro tn htn
        rw [hother tn (fun b hb => htn b (List.mem_cons_of_mem a hb))]
        exact lookupTok_setTokFuel_other cat0 a.1 tn _
          (fun hc => htn a (List.mem_cons_self a rest) hc.symm)
      · intro b hb ts' hts'
        rw [List.mem_cons] at hb
        rcases hb with hb | hb
        · subst hb
          rw [hts] at hts'
          cases hts'
          rw [if_neg hcond]
          rw [hother b.1 hrest_ne]
          exact lookupTok_setTokFuel_same cat0 b.1 _ ts hts0
        · exact heach b hb ts' hts'

/-- Claim C6 as stated is false on the code: the coercion condition is
`fuel - cost < min_fuel`, not `fuel < cost`.  Here the token has fuel 5
and the move costs 3 — remaining fuel is not below the cost, so the
claim prescribes deducting (leaving fuel 2) and applying the move — yet
with `min_fuel = 4` the code coerces the action to NoOp and deducts
nothing. -/
theorem fuel_constraint_counterexample :
    ¬ ((5 : ℚ) < 3) ∧
    applyFuelConstraintsMove ⟨4, fun _ => 3, fun _ => 3⟩
      [(⟨Player.alpha, Role.seeker, 0⟩, ⟨5, 0, Role.seeker, 1⟩)]
      [(⟨Player.alpha, Role.seeker, 0⟩, MoveKind.prograde)] =
      some ([(⟨Player.alpha, Role.seeker, 0⟩, ⟨5, 0, Role.seeker, 1⟩)],
        [(⟨Player.alpha, Role.seeker, 0⟩, MoveKind.noop)]) := by
  constructor
  · norm_num
  · simp [applyFuelConstraintsMove, fuelConstraintStep, fuelUsageOf,
      lookupTok, List.find?, List.foldlM]
    norm_num

/-- Claim C6, amended.  In the MOVEMENT step, for every token whose
selected action has fuel cost such that `fuel - cost < min_fuel`, the
action is coerced to NoOp and no fuel is deducted from that token; for
every other token the cost is deducted from its fuel and its action is
kept (to be applied by `move_pieces`).  Stated for action dicts with
one entry per token (dict keys are unique) whose tokens are all in the
catalog. -/
theorem fuel_constraints_move_spec (FP : FuelParams) (cat : Catalog)
    (acts : List (TokenId × MoveKind))
    (hnd : (acts.map Prod.fst).Nodup)
    (hpres : ∀ a ∈ acts, ∃ ts, lookupTok cat a.1 = some ts) :
    ∃ catF, applyFuelConstraintsMove FP cat acts =
      some (catF, acts.map (constrainMoveAction FP cat)) ∧
      ∀ a ∈ acts, ∀ ts, lookupTok cat a.1 = some ts →
        ((ts.fuel - fuelUsageOf FP a.1.player a.2 < FP.minFuel →
           constrainMoveAction FP cat a = (a.1, MoveKind.noop) ∧
           lookupTok catF a.1 = some ts) ∧
         (¬ ts.fuel - fuelUsageOf FP a.1.player a.2 < FP.minFuel →
           constrainMoveAction FP cat a = a ∧
           lookupTok catF a.1 =
             some { ts with fuel := ts.fuel - fuelUsageOf FP a.1.player a.2 })) := by
  obtain ⟨catF, hfold, _, heach⟩ := fuelConstraint_fold_spec FP cat acts cat []
    hnd (fun _ _ => rfl) hpres
  refine ⟨catF, ?_, ?_⟩
  · unfold applyFuelConstraintsMove
    rw [hfold]
    rfl
  · intro a ha ts hts
    constructor
    · intro hcond
      refine ⟨?_, ?_⟩
      · unfold constrainMoveAction
        rw [hts]
        simp only [if_pos hcond]
      · have := heach a ha ts hts
        rw [if_pos hcond] at this
        exact this
    · intro hcond
      refine ⟨?_, ?_⟩
      · unfold constrainMoveAction
        rw [hts]
        simp only [if_neg hcond]
      · have := heach a ha ts hts
        rw [if_neg hcond] at this
        exact this

/-- Witness for `fuel_constraints_move_spec`: two tokens, the alpha one
coerced (5 − 3 < 4) with fuel kept, the beta one kept (10 − 3 ≥ 4) with
fuel deducted. -/
theorem fuel_constraints_move_spec_witness :
    (([(⟨Player.alpha, Role.seeker, 0⟩, MoveKind.prograde),
       (⟨Player.beta, Role.seeker, 0⟩, MoveKind.prograde)] :
        List (TokenId × MoveKind)).map Prod.fst).Nodup ∧
    ∃ catF, applyFuelConstraintsMove ⟨4, fun _ => 3, fun _ => 3⟩
      [(⟨Player.alpha, Role.seeker, 0⟩, ⟨5, 0, Role.seeker, 1⟩),
       (⟨Player.beta, Role.seeker, 0⟩, ⟨10, 0, Role.seeker, 2⟩)]
      [(⟨Player.alpha, Role.seeker, 0⟩, MoveKind.prograde),
       (⟨Player.beta, Role.seeker, 0⟩, MoveKind.prograde)] =
      some (catF,
        ([(⟨Player.alpha, Role.seeker, 0⟩, MoveKind.prograde),
          (⟨Player.beta, Role.seeker, 0⟩, MoveKind.prograde)] :
           List (TokenId × MoveKind)).map
          (constrainMoveAction ⟨4, fun _ => 3, fun _ => 3⟩
            [(⟨Player.alpha, Role.seeker, 0⟩, ⟨5, 0, Role.seeker, 1⟩),
             (⟨Player.beta, Role.seeker, 0⟩, ⟨10, 0, Role.seeker, 2⟩)])) ∧
      ∀ a ∈ ([(⟨Player.alpha, Role.seeker, 0⟩, MoveKind.prograde),
              (⟨Player.beta, Role.seeker, 0⟩, MoveKind.prograde)] :
               List (TokenId × MoveKind)),
        ∀ ts, lookupTok
            [(⟨Player.alpha, Role.seeker, 0⟩, ⟨5, 0, Role.seeker, 1⟩),
             (⟨Player.beta, Role.seeker, 0⟩, ⟨10, 0, Role.seeker, 2⟩)] a.1 =
            some ts →
          ((ts.fuel - fuelUsageOf ⟨4, fun _ => 3, fun _ => 3⟩ a.1.player a.2 <
              (4 : ℚ) →
             constrainMoveAction ⟨4, fun _ => 3, fun _ => 3⟩
               [(⟨Player.alpha, Role.seeker, 0⟩, ⟨5, 0, Role.seeker, 1⟩),
                (⟨Player.beta, Role.seeker, 0⟩, ⟨10, 0, Role.seeker, 2⟩)] a =
               (a.1, MoveKind.noop) ∧
             lookupTok catF a.1 = some ts) ∧
           (¬ ts.fuel - fuelUsageOf ⟨4, fun _ => 3, fun _ => 3⟩ a.1.player a.2 <
              (4 : ℚ) →
             constrainMoveAction ⟨4, fun _ => 3, fun _ => 3⟩
               [(⟨Player.alpha, Role.seeker, 0⟩, ⟨5, 0, Role.seeker, 1⟩),
                (⟨Player.beta, Role.seeker, 0⟩, ⟨10, 0, Role.seeker, 2⟩)] a = a ∧
             lookupTok catF a.1 =
               some { ts with fuel :=
                 ts.fuel - fuelUsageOf ⟨4, fun _ => 3, fun _ => 3⟩ a.1.player a.2 })) :=
  ⟨by simp [lookupTok],
   fuel_constraints_move_spec ⟨4, fun _ => 3, fun _ => 3⟩
     [(⟨Player.alpha, Role.seeker, 0⟩, ⟨5, 0, Role.seeker, 1⟩),
      (⟨Player.beta, Role.seeker, 0⟩, ⟨10, 0, Role.seeker, 2⟩)]
     [(⟨Player.alpha, Role.seeker, 0⟩, MoveKind.prograde),
      (⟨Player.beta, Role.seeker, 0⟩, MoveKind.prograde)]
     (by simp [lookupTok])
     (by
       intro a ha
       rw [List.mem_cons, List.mem_singleton] at ha
       rcases ha with ha | ha
       · subst ha
         exact ⟨⟨5, 0, Role.seeker, 1⟩, by simp [lookupTok, List.find?]⟩
       · subst ha
         exact ⟨⟨10, 0, Role.seeker, 2⟩, by simp [lookupTok, List.find?]⟩)⟩

/-! ### The two-player game server's request path
(`TwoPlayerGameServer.process_request` for the game-action contexts,
`process_game_action_request`, `check_game_context`,
`check_api_version`).  The game engine is abstracted as a state type
`γ` with the operations the server invokes on it (`reset_game`,
`apply_verbose_actions` on the two queued requests, and the turn phase
read by `check_game_context`); a publish on the PUB socket is modelled
by appending the published engine state to a list. -/

/-- The game-action message contexts
(`GAME_RESET`, `MOVE_PHASE`, `ENGAGE_PHASE`, `DRIFT_PHASE`). -/
inductive ReqContext
  | gameReset
  | movePhase
  | engagePhase
  | driftPhase
deriving DecidableEq, Repr

/-- The `data.kind` descriptor of a request
(`MOVE_PHASE_REQ`, `ENGAGE_PHASE_REQ`, anything else). -/
inductive DataKind
  | moveReq
  | engageReq
  | otherKind
deriving DecidableEq, Repr

/-- A request message's protocol-relevant fields: `apiVersion`,
`context`, the `ClientIDTuple` (`playerAlias`, `playerUUID`) and
`data.kind`. -/
structure Request where
  apiVersion : ℕ
  context : ReqContext
  cliAlias : ℕ
  cliUuid : ℕ
  dataKind : DataKind
deriving DecidableEq, Repr

/-- The kind of response returned to the requesting client. -/
inductive RespKind
  | errorResp
  | waitingResp
  | advancingResp
deriving DecidableEq, Repr

/-- The server's mutable state: the player registry
(`player_registry : player id → ClientIDTuple`), the per-player input
queue, the game engine, and the list of game states published on the
PUB socket. -/
structure ServerState (γ : Type) where
  registry : List (Player × (ℕ × ℕ))
  queue1 : Option Request
  queue2 : Option Request
  engine : γ
  published : List γ

/-- `self.player_registry.inv[cli_id]`: the backend player registered
with this alias/UID pair, if any. -/
def lookupPlayer (reg : List (Player × (ℕ × ℕ))) (cid : ℕ × ℕ) : Option Player :=
  (reg.find? (fun e => e.2 = cid)).map (fun e => e.1)

def otherPlayer : Player → Player
  | Player.alpha => Player.beta
  | Player.beta => Player.alpha

/-- The sender's slot of `player_input_queue`. -/
def queueOf {γ : Type} (S : ServerState γ) : Player → Option Request
  | Player.alpha => S.queue1
  | Player.beta => S.queue2

/-- `self.player_input_queue[p] = r`. -/
def setQueueSlot {γ : Type} (S : ServerState γ) (p : Player) (r : Option Request) :
    ServerState γ :=
  match p with
  | Player.alpha => { S with queue1 := r }
  | Player.beta => { S with queue2 := r }

/-- `TwoPlayerGameServer.check_game_context`, `True` = error reply:
`GAME_RESET` always passes; `MOVE_PHASE` requires the MOVEMENT phase
and data kind `MOVE_PHASE_REQ`; `ENGAGE_PHASE` requires the ENGAGEMENT
phase and data kind `ENGAGE_PHASE_REQ`; `DRIFT_PHASE` requires the
DRIFT phase (`check_player_request_tokens` always returns `None` —
marked TODO in the source). -/
def checkGameContext (phase : TurnPhase) (req : Request) : Bool :=
  match req.context with
  | ReqContext.gameReset => false
  | ReqContext.movePhase =>
      decide (phase ≠ TurnPhase.movement) || decide (req.dataKind ≠ DataKind.moveReq)
  | ReqContext.engagePhase =>
      decide (phase ≠ TurnPhase.engagement) || decide (req.dataKind ≠ DataKind.engageReq)
  | ReqContext.driftPhase => decide (phase ≠ TurnPhase.drift)

/-- `TwoPlayerGameServer.process_game_action_request`: on a game-context
error, return the error reply; otherwise store the request in the
sender's queue slot; if the other player's request is not yet queued,
reply WAITING; if the two queued contexts differ, return the
mismatched-contexts error reply; otherwise reset or step the engine
with both queued requests, publish the new game state, clear the queue
and reply ADVANCING. -/
def processGameActionRequest {γ : Type} (phaseOf : γ → TurnPhase)
    (resetGame : γ → γ) (applyActions : γ → Request → Request → γ)
    (S : ServerState γ) (player : Player) (req : Request) :
    ServerState γ × RespKind :=
  if checkGameContext (phaseOf S.engine) req then (S, RespKind.errorResp)
  else
    let S1 := setQueueSlot S player (some req)
    match queueOf S1 (otherPlayer player) with
    | none => (S1, RespKind.waitingResp)
    | some otherReq =>
      if req.context ≠ otherReq.context then (S1, RespKind.errorResp)
      else
        let g2 := if req.context = ReqContext.gameReset then resetGame S1.engine
                  else applyActions S1.engine
                    ((queueOf S1 Player.alpha).getD req)
                    ((queueOf S1 Player.beta).getD req)
        ({ S1 with
            engine := g2,
            published := S1.published ++ [g2],
            queue1 := none,
            queue2 := none }, RespKind.advancingResp)

/-- `TwoPlayerGameServer.process_request` for the game-action contexts:
check the API version, then the sender's registered identity, then
hand off to `process_game_action_request`. -/
def processRequest {γ : Type} (phaseOf : γ → TurnPhase)
    (resetGame : γ → γ) (applyActions : γ → Request → Request → γ)
    (curVersion : ℕ) (S : ServerState γ) (req : Request) :
    ServerState γ × RespKind :=
  if req.apiVersion ≠ curVersion then (S, RespKind.errorResp)
  else
    match lookupPlayer S.registry (req.cliAlias, req.cliUuid) with
    | none => (S, RespKind.errorResp)
    | some p => processGameActionRequest phaseOf resetGame applyActions S p req

/-- Claim C5 as stated is false on the code: the request is stored in
the sender's input-queue slot *before* the mismatched-player-contexts
check, so that error reply leaves the queue altered.  Here the game is
in the MOVEMENT phase, alpha has a `MOVE_PHASE` request queued, and the
registered beta client sends a valid `GAME_RESET` request: the reply is
the mismatched-contexts error, yet beta's queue slot — empty before the
request — now holds the request. -/
theorem server_mismatched_context_counterexample :
    (processRequest (γ := TurnPhase) id id (fun g _ _ => g) 1
      ⟨[(Player.alpha, (1, 10)), (Player.beta, (2, 20))],
       some ⟨1, ReqContext.movePhase, 1, 10, DataKind.moveReq⟩, none,
       TurnPhase.movement, []⟩
      ⟨1, ReqContext.gameReset, 2, 20, DataKind.otherKind⟩).2 =
      RespKind.errorResp ∧
    (processRequest (γ := TurnPhase) id id (fun g _ _ => g) 1
      ⟨[(Player.alpha, (1, 10)), (Player.beta, (2, 20))],
       some ⟨1, ReqContext.movePhase, 1, 10, DataKind.moveReq⟩, none,
       TurnPhase.movement, []⟩
      ⟨1, ReqContext.gameReset, 2, 20, DataKind.otherKind⟩).1.queue2 =
      some ⟨1, ReqContext.gameReset, 2, 20, DataKind.otherKind⟩ := by
  constructor <;> rfl

/-- Claim C5, amended.  Every protocol-layer error reply leaves the
engine state untouched and publishes nothing; the version-mismatch,
unregistered-identity and context/phase/data-kind errors also leave the
input queue unchanged, but the mismatched-player-contexts error
overwrites the sender's queue slot with the offending request (the
other player's slot is unchanged). -/
theorem server_error_replies_spec {γ : Type} (phaseOf : γ → TurnPhase)
    (resetGame : γ → γ) (applyActions : γ → Request → Request → γ)
    (curVersion : ℕ) (S : ServerState γ) (req : Request) :
    (req.apiVersion ≠ curVersion →
      processRequest phaseOf resetGame applyActions curVersion S req =
        (S, RespKind.errorResp)) ∧
    (req.apiVersion = curVersion →
      lookupPlayer S.registry (req.cliAlias, req.cliUuid) = none →
      processRequest phaseOf resetGame applyActions curVersion S req =
        (S, RespKind.errorResp)) ∧
    (∀ p, req.apiVersion = curVersion →
      lookupPlayer S.registry (req.cliAlias, req.cliUuid) = some p →
      checkGameContext (phaseOf S.engine) req = true →
      processRequest phaseOf resetGame applyActions curVersion S req =
        (S, RespKind.errorResp)) ∧
    (∀ p otherReq, req.apiVersion = curVersion →
      lookupPlayer S.registry (req.cliAlias, req.cliUuid) = some p →
      checkGameContext (phaseOf S.engine) req = false →
      queueOf S (otherPlayer p) = some otherReq →
      req.context ≠ otherReq.context →
      processRequest phaseOf resetGame applyActions curVersion S req =
        (setQueueSlot S p (some req), RespKind.errorResp) ∧
      (setQueueSlot S p (some req)).engine = S.engine ∧
      (setQueueSlot S p (some req)).published = S.published ∧
      queueOf (setQueueSlot S p (some req)) p = some req ∧
      queueOf (setQueueSlot S p (some req)) (otherPlayer p) =
        queueOf S (otherPlayer p)) := by
  refine ⟨?_, ?_, ?_, ?_⟩
  · intro hv
    unfold processRequest
    rw [if_pos hv]
  · intro hv hlk
    unfold processRequest
    rw [if_neg (by simp [hv]), hlk]
  · intro p hv hlk hctx
    unfold processRequest
    rw [if_neg (by simp [hv]), hlk]
    show processGameActionRequest phaseOf resetGame applyActions S p req = _
    unfold processGameActionRequest
    rw [if_pos hctx]
  · intro p otherReq hv hlk hctx hq hmm
    have hq1 : queueOf (setQueueSlot S p (some req)) (otherPlayer p) =
        queueOf S (otherPlayer p) := by
      cases p <;> rfl
    refine ⟨?_, ?_, ?_, ?_, hq1⟩
    · unfold processRequest
      rw [if_neg (by simp [hv]), hlk]
      show processGameActionRequest phaseOf resetGame applyActions S p req = _
      unfold processGameActionRequest
      rw [if_neg (by rw [hctx]; exact Bool.false_ne_true)]
      have hq2 : queueOf (setQueueSlot S p (some req)) (otherPlayer p) = some otherReq := by
        rw [hq1]; exact hq
      dsimp only
      simp only [hq2]
      rw [if_pos hmm]
    · cases p <;> rfl
    · cases p <;> rfl
    · cases p <;> rfl

/-- Witness for `server_error_replies_spec`: the mismatched-contexts
branch at the counterexample configuration. -/
theorem server_error_replies_spec_witness :
    (processRequest (γ := TurnPhase) id id (fun g _ _ => g) 1
      ⟨[(Player.alpha, (1, 10)), (Player.beta, (2, 20))],
       some ⟨1, ReqContext.movePhase, 1, 10, DataKind.moveReq⟩, none,
       TurnPhase.movement, []⟩
      ⟨1, ReqContext.gameReset, 2, 20, DataKind.otherKind⟩ =
      (setQueueSlot
        ⟨[(Player.alpha, (1, 10)), (Player.beta, (2, 20))],
         some ⟨1, ReqContext.movePhase, 1, 10, DataKind.moveReq⟩, none,
         TurnPhase.movement, []⟩ Player.beta
        (some ⟨1, ReqContext.gameReset, 2, 20, DataKind.otherKind⟩),
       RespKind.errorResp)) ∧
    (setQueueSlot (γ := TurnPhase)
      ⟨[(Player.alpha, (1, 10)), (Player.beta, (2, 20))],
       some ⟨1, ReqContext.movePhase, 1, 10, DataKind.moveReq⟩, none,
       TurnPhase.movement, []⟩ Player.beta
      (some ⟨1, ReqContext.gameReset, 2, 20, DataKind.otherKind⟩)).engine =
      TurnPhase.movement :=
  ⟨((server_error_replies_spec (γ := TurnPhase) id id (fun g _ _ => g) 1
      ⟨[(Player.alpha, (1, 10)), (Player.beta, (2, 20))],
       some ⟨1, ReqContext.movePhase, 1, 10, DataKind.moveReq⟩, none,
       TurnPhase.movement, []⟩
      ⟨1, ReqContext.gameReset, 2, 20, DataKind.otherKind⟩).2.2.2
      Player.beta ⟨1, ReqContext.movePhase, 1, 10, DataKind.moveReq⟩
      rfl rfl rfl rfl (by decide)).1,
   rfl⟩

end OD2D
